import Mathlib

/-!
Shallow embedding of the IvyRecon reconciliation engine
(`utils.py`, `reconcile.py`, `app.py`, `aliases.py`) and proofs about it.

Strings are Lean `String`s manipulated through their character lists;
monetary amounts are exact rationals (`ℚ`), with Python's `round`
modelled as round-half-to-even on rationals; fallible code returns
`Except`/`Option`.
-/

namespace IvyRecon

/-! ### Python primitives -/

/-- Python `round()` restricted to exact rationals: round half to even,
returning an integer. -/
def pyRound (q : ℚ) : ℤ :=
  let f : ℤ := q.floor
  let r : ℚ := q - (f : ℚ)
  if r < 1/2 then f
  else if 1/2 < r then f + 1
  else if f % 2 = 0 then f else f + 1

/-- Python `str.strip()` (no arguments): drop whitespace from both ends. -/
def pyStrip (s : String) : String :=
  let l := s.data.dropWhile Char.isWhitespace
  ⟨(l.reverse.dropWhile Char.isWhitespace).reverse⟩

/-- Python `str.lower()` (ASCII data in this program). -/
def pyLower (s : String) : String :=
  ⟨s.data.map Char.toLower⟩

/-- Replace every maximal run of characters satisfying `p` by a single
space (the effect of `re.sub(r"<class>+", " ", s)`).  The boolean flag
records whether the previous character was part of a run. -/
def collapseRuns (p : Char → Bool) : List Char → Bool → List Char
  | [], _ => []
  | c :: cs, inRun =>
    if p c then
      (if inRun then collapseRuns p cs true else ' ' :: collapseRuns p cs true)
    else c :: collapseRuns p cs false

/-- `re.sub(r"\s+", " ", s)`. -/
def collapseWs (s : String) : String :=
  ⟨collapseRuns Char.isWhitespace s.data false⟩

/-- `re.sub(r"\D", "", s)`: keep only the decimal digits. -/
def digitsOnly (s : String) : String :=
  ⟨s.data.filter Char.isDigit⟩

/-- Python `str.zfill(w)`: left-pad with `'0'` to width `w`, keeping a
leading sign character in front of the padding. -/
def pyZfill (w : Nat) (s : String) : String :=
  match s.data with
  | [] => ⟨List.replicate w '0'⟩
  | c :: rest =>
    if c = '+' ∨ c = '-' then
      ⟨c :: (List.replicate (w - s.data.length) '0' ++ rest)⟩
    else
      ⟨List.replicate (w - s.data.length) '0' ++ s.data⟩

/-- Python string comparison `a < b` (lexicographic on code points). -/
def charListLt : List Char → List Char → Bool
  | [], [] => false
  | [], _ :: _ => true
  | _ :: _, [] => false
  | a :: as, b :: bs =>
    if a < b then true else if b < a then false else charListLt as bs

def strLt (a b : String) : Bool := charListLt a.data b.data

/-- Stable insertion into an ascending list (helper for Python `sorted`). -/
def sortedInsert (x : String) : List String → List String
  | [] => [x]
  | y :: ys => if strLt x y then x :: y :: ys else y :: sortedInsert x ys

/-- Python `sorted` on a list of strings (ascending, stable). -/
def pySorted (l : List String) : List String :=
  l.foldl (fun acc x => sortedInsert x acc) []

/-- Python truthiness of a string. -/
def pyTruthy (s : String) : Bool := s ≠ ""

/-! ### Raw cells

A raw spreadsheet cell feeding `pd.to_numeric(..., errors="coerce")`:
either an (already numeric) value, a non-numeric text (which pandas
coerces to `NaN`), or a missing value `NaN` itself.  Text that pandas
would parse as a number is modelled as `.num`. -/

inductive Cell where
  | num (q : ℚ)
  | txt (s : String)
  | na
deriving DecidableEq

/-- `pd.to_numeric(c, errors="coerce")`: `NaN` results become `none`. -/
def toNumericCoerce : Cell → Option ℚ
  | .num q => some q
  | .txt _ => none
  | .na => none

/-! ### utils.py -/

def REQUIRED_COLS : List String :=
  ["SSN", "First Name", "Last Name", "Plan Name", "Employee Cost", "Employer Cost"]

def CANONICAL_MAP : List (String × String) :=
  [("ssn", "SSN"),
   ("social security number", "SSN"),
   ("first name", "First Name"),
   ("last name", "Last Name"),
   ("plan", "Plan Name"),
   ("plan name", "Plan Name"),
   ("employee amount", "Employee Cost"),
   ("employee cost", "Employee Cost"),
   ("employer amount", "Employer Cost"),
   ("employer cost", "Employer Cost")]

def PLAN_ALIASES : List (String × String) :=
  [("medical", "health"),
   ("health", "health"),
   ("std", "short term disability"),
   ("short term disability", "short term disability"),
   ("ltd", "long term disability"),
   ("long term disability", "long term disability"),
   ("dental", "dental"),
   ("vision", "vision"),
   ("ppo", "ppo"),
   ("hmo", "hmo"),
   ("hsa", "hsa"),
   ("fsa", "fsa")]

/-- `utils.normalize_header`. -/
def normalizeHeader (h : String) : Option String :=
  let key := collapseWs (pyLower (pyStrip h))
  CANONICAL_MAP.lookup key

/-- `utils.standardize_columns`, acting on the list of column names. -/
def standardizeColumns (cols : List String) : List String :=
  cols.map (fun c => (normalizeHeader c).getD c)

/-- `utils.validate_required_columns`, acting on the list of column names. -/
def validateRequiredColumns (cols : List String) : List String :=
  REQUIRED_COLS.filter (fun c => ¬ c ∈ cols)

/-- One raw data row (the six canonical fields of a source table).
Text columns hold the cell's `astype(str)` rendering; amount columns
hold raw cells. -/
structure RawRow where
  ssn : String
  first : String
  last : String
  plan : String
  ee : Cell
  er : Cell
deriving DecidableEq

/-- One row after `utils.coerce_types`. -/
structure PRow where
  ssn : String
  first : String
  last : String
  plan : String
  ee : ℚ
  er : ℚ
deriving DecidableEq

/-- `utils.coerce_types`, acting on one row: trim the text fields, keep
only digits of the SSN, coerce the amounts (`NaN`/non-numeric → 0.0). -/
def coerceRow (r : RawRow) : PRow :=
  { ssn := digitsOnly r.ssn
    first := pyStrip r.first
    last := pyStrip r.last
    plan := pyStrip r.plan
    ee := (toNumericCoerce r.ee).getD 0
    er := (toNumericCoerce r.er).getD 0 }

/-- Split on runs of whitespace, dropping empties (Python `str.split()`). -/
def pySplit (s : String) : List String :=
  (s.split (fun c => c = ' ')).filter (fun t => t ≠ "")

/-- `utils.normalize_plan_name`. -/
def normalizePlanName (s : String) : String :=
  let s1 := pyLower (pyStrip s)
  let s2 : String :=
    ⟨collapseRuns
      (fun c => ¬ (('a' ≤ c ∧ c ≤ 'z') ∨ ('0' ≤ c ∧ c ≤ '9'))) s1.data false⟩
  let s3 := pyStrip (collapseWs s2)
  let tokens := (pySplit s3).map (fun tok => (PLAN_ALIASES.lookup tok).getD tok)
  String.intercalate " " tokens

/-! ### difflib.SequenceMatcher (Python standard library)

`utils.plan_similarity` calls `SequenceMatcher(None, a, b).ratio()`.
We translate the stdlib algorithm for `isjunk=None` (so the junk set
`bjunk` is empty and the junk-restricted extension loops of
`find_longest_match` are vacuous) with the default `autojunk=True`. -/

/-- Ascending positions of character `c` in `b`, offset by `i`. -/
def positionsOf (c : Char) : List Char → Nat → List Nat
  | [], _ => []
  | d :: ds, i =>
    if d = c then i :: positionsOf c ds (i + 1) else positionsOf c ds (i + 1)

/-- `SequenceMatcher.__chain_b`: the `b2j` index of the second sequence.
With `autojunk` and `len(b) >= 200`, characters occupying more than
`len(b) // 100 + 1` positions are "popular" and removed from `b2j`. -/
def b2jOf (b : List Char) (c : Char) : List Nat :=
  let idxs := positionsOf c b 0
  if 200 ≤ b.length ∧ b.length / 100 + 1 < idxs.length then [] else idxs

/-- Inner `for j in b2j.get(a[i], [])` loop of `find_longest_match` for
one row `i`: threads the new length dictionary and the current best
`(besti, bestj, bestsize)`; `j < blo` is `continue`, `j >= bhi` is
`break`.  `d` is the previous row's dictionary (`j2len`), total default
0, and `d (j-1)` for `j = 0` is Python's `j2len.get(-1, 0) = 0`. -/
def flmInner (blo bhi i : Nat) (d : Nat → Nat) :
    List Nat → (Nat → Nat) → (Nat × Nat × Nat) → ((Nat → Nat) × (Nat × Nat × Nat))
  | [], newd, best => (newd, best)
  | j :: js, newd, best =>
    if j < blo then flmInner blo bhi i d js newd best
    else if bhi ≤ j then (newd, best)
    else
      let k := (if j = 0 then 0 else d (j - 1)) + 1
      let newd' := fun j' => if j' = j then k else newd j'
      let best' := if best.2.2 < k then (i + 1 - k, j + 1 - k, k) else best
      flmInner blo bhi i d js newd' best'

/-- Outer `for i in range(alo, ahi)` loop of `find_longest_match`. -/
def flmRows (a : List Char) (b2jf : Char → List Nat) (blo bhi : Nat) :
    List Nat → (Nat → Nat) → (Nat × Nat × Nat) → (Nat × Nat × Nat)
  | [], _, best => best
  | i :: is, d, best =>
    let st := flmInner blo bhi i d (b2jf (a.getD i ' ')) (fun _ => 0) best
    flmRows a b2jf blo bhi is st.1 st.2

/-- The backward extension `while` loop of `find_longest_match`
(`fuel` bounds the iterations; `besti` strictly decreases, so `besti`
itself is sufficient fuel). -/
def extBack (a b : List Char) (alo blo : Nat) :
    Nat → Nat → Nat → Nat → (Nat × Nat × Nat)
  | 0, besti, bestj, bestsize => (besti, bestj, bestsize)
  | fuel + 1, besti, bestj, bestsize =>
    if alo < besti ∧ blo < bestj ∧
        a.getD (besti - 1) ' ' = b.getD (bestj - 1) ' ' then
      extBack a b alo blo fuel (besti - 1) (bestj - 1) (bestsize + 1)
    else (besti, bestj, bestsize)

/-- The forward extension `while` loop of `find_longest_match`
(`bestsize` strictly increases towards `ahi`, so `ahi` is sufficient
fuel). -/
def extFwd (a b : List Char) (ahi bhi besti bestj : Nat) :
    Nat → Nat → Nat
  | 0, bestsize => bestsize
  | fuel + 1, bestsize =>
    if besti + bestsize < ahi ∧ bestj + bestsize < bhi ∧
        a.getD (besti + bestsize) ' ' = b.getD (bestj + bestsize) ' ' then
      extFwd a b ahi bhi besti bestj fuel (bestsize + 1)
    else bestsize

/-- `SequenceMatcher.find_longest_match` on the window
`a[alo:ahi] × b[blo:bhi]` (junk-free case). -/
def findLongestMatch (a b : List Char) (b2jf : Char → List Nat)
    (alo ahi blo bhi : Nat) : Nat × Nat × Nat :=
  let best := flmRows a b2jf blo bhi (List.range' alo (ahi - alo)) (fun _ => 0)
    (alo, blo, 0)
  let ext := extBack a b alo blo best.1 best.1 best.2.1 best.2.2
  let size := extFwd a b ahi bhi ext.1 ext.2.1 ahi ext.2.2
  (ext.1, ext.2.1, size)

/-- Total size of the matching blocks found by
`SequenceMatcher.get_matching_blocks` (the queue recursion: take the
longest match of the window, recurse left and right of it; sorting and
merging adjacent blocks do not change the total).  Encoded with fuel;
each recursive call strictly shrinks `(ahi - alo) + (bhi - blo)`, so
`|a| + |b| + 1` is sufficient fuel at the top window. -/
def matchingTotalF (a b : List Char) (b2jf : Char → List Nat) :
    Nat → Nat → Nat → Nat → Nat → Nat
  | 0, _, _, _, _ => 0
  | fuel + 1, alo, ahi, blo, bhi =>
    let m := findLongestMatch a b b2jf alo ahi blo bhi
    if m.2.2 = 0 then 0
    else
      matchingTotalF a b b2jf fuel alo m.1 blo m.2.1 + m.2.2 +
        matchingTotalF a b b2jf fuel (m.1 + m.2.2) ahi (m.2.1 + m.2.2) bhi

/-- `SequenceMatcher(None, a, b).ratio()`:
`2 * matches / (len(a) + len(b))`, and `1.0` for two empty sequences. -/
def seqRatio (a b : List Char) : ℚ :=
  let m := matchingTotalF a b (b2jOf b) (a.length + b.length + 1) 0 a.length 0 b.length
  if a.length + b.length = 0 then 1
  else 2 * (m : ℚ) / ((a.length + b.length : Nat) : ℚ)

/-- `utils.plan_similarity`. -/
def planSimilarity (x y : String) : ℚ :=
  seqRatio (normalizePlanName x).data (normalizePlanName y).data

/-! ### reconcile.py -/

/-- `reconcile._prepare`, column-validation part: standardize the
headers, and fail when required canonical columns are missing.  The
Python code raises
`ValueError(f"{source_name}: Missing required columns: {', '.join(missing)}")`;
the error value here is that message's content, the source name paired
with the list of missing canonical column names. -/
def prepareCols (sourceName : String) (cols : List String) :
    Except (String × List String) (List String) :=
  let cols' := standardizeColumns cols
  let missing := validateRequiredColumns cols'
  if missing.isEmpty then .ok cols' else .error (sourceName, missing)

/-- The merge key of `reconcile._prepare`:
`df["SSN"].astype(str) + "||" + df["Plan Name"].astype(str)`. -/
def keyOf (r : PRow) : String := r.ssn ++ "||" ++ r.plan

/-- One discrepancy row of the row-level engine (`reconcile._err_row` /
the duplicate-SSN rows).  `first`/`last` are `none` on duplicate-SSN
rows (Python `None`). -/
structure ERow where
  etype : String
  ssn : String
  first : Option String
  last : Option String
  plan : String
  eeA : Option ℚ
  eeB : Option ℚ
  erA : Option ℚ
  erB : Option ℚ
  sim : Option ℚ
deriving DecidableEq

/-- `round(sim, 3)` (Python `round` to 3 decimal places, half to even). -/
def pyRound3 (q : ℚ) : ℚ := (pyRound (q * 1000) : ℚ) / 1000

/-- `reconcile._err_row`: because prepared rows never carry `NaN` in
their text fields, the per-field `pd.notna` fallbacks collapse to
taking the present side (the A side when both are present). -/
def errRow (oa ob : Option PRow) (etype : String) (sim : Option ℚ) : ERow :=
  match oa, ob with
  | some a, some b =>
    { etype := etype, ssn := a.ssn, first := some a.first, last := some a.last
      plan := a.plan, eeA := some a.ee, eeB := some b.ee
      erA := some a.er, erB := some b.er, sim := sim }
  | some a, none =>
    { etype := etype, ssn := a.ssn, first := some a.first, last := some a.last
      plan := a.plan, eeA := some a.ee, eeB := none
      erA := some a.er, erB := none, sim := sim }
  | none, some b =>
    { etype := etype, ssn := b.ssn, first := some b.first, last := some b.last
      plan := b.plan, eeA := none, eeB := some b.ee
      erA := none, erB := some b.er, sim := sim }
  | none, none =>
    { etype := etype, ssn := "", first := none, last := none, plan := ""
      eeA := none, eeB := none, erA := none, erB := none, sim := sim }

/-- Python `set.add` on an insertion-ordered model of a set. -/
def setAdd (l : List String) (x : String) : List String :=
  if x ∈ l then l else l ++ [x]

/-- `ssn_plans.setdefault(ssn, set()).update({pa, pb})`. -/
def updPlans : List (String × List String) → String → String → String →
    List (String × List String)
  | [], ssn, pa, pb => [(ssn, setAdd (setAdd [] pa) pb)]
  | (s, ps) :: rest, ssn, pa, pb =>
    if s = ssn then (s, setAdd (setAdd ps pa) pb) :: rest
    else (s, ps) :: updPlans rest ssn pa pb

/-- Full outer `pd.merge` on a key, with the key expressed by `key`:
each left row is paired with every key-equal right row (or with `none`
if there is none), followed by the unmatched right rows. -/
def mergeOuterBy {κ : Type} [DecidableEq κ] (key : PRow → κ) (A B : List PRow) :
    List (Option PRow × Option PRow) :=
  (A.map (fun a =>
    let ms := B.filter (fun b => key b = key a)
    if ms.isEmpty then [(some a, none)] else ms.map (fun b => (some a, some b)))).flatten
  ++ (B.filter (fun b => ¬ A.any (fun a => key a = key b))).map
      (fun b => ((none : Option PRow), some b))

/-- The per-row loop of `reconcile.reconcile_two` (lines 33-60): emit
missing / plan-name / amount discrepancies and thread the
`ssn_plans` accumulator.  Note that the amount comparison is plain
`!=` on the two values, and that rows missing on one side `continue`
before the `ssn_plans` update. -/
def rowErrors (thr : ℚ) (aName bName : String) :
    List (Option PRow × Option PRow) → List (String × List String) →
    List ERow × List (String × List String)
  | [], sp => ([], sp)
  | (oa, ob) :: rest, sp =>
    match oa, ob with
    | some a, none =>
      let res := rowErrors thr aName bName rest sp
      (errRow (some a) none ("Missing in " ++ bName) none :: res.1, res.2)
    | none, some b =>
      let res := rowErrors thr aName bName rest sp
      (errRow none (some b) ("Missing in " ++ aName) none :: res.1, res.2)
    | none, none => rowErrors thr aName bName rest sp
    | some a, some b =>
      let sim := planSimilarity a.plan b.plan
      let e1 : List ERow :=
        if sim < thr then [errRow (some a) (some b) "Plan Name Mismatch" (some (pyRound3 sim))]
        else []
      let e2 : List ERow :=
        if a.ee ≠ b.ee then [errRow (some a) (some b) "Employee Amount Mismatch" none]
        else []
      let e3 : List ERow :=
        if a.er ≠ b.er then [errRow (some a) (some b) "Employer Amount Mismatch" none]
        else []
      let sp' := if pyTruthy a.ssn then
          updPlans sp a.ssn (normalizePlanName a.plan) (normalizePlanName b.plan)
        else sp
      let res := rowErrors thr aName bName rest sp'
      (e1 ++ e2 ++ e3 ++ res.1, res.2)

/-- The duplicate-SSN pass of `reconcile.reconcile_two` (lines 62-75). -/
def dupErrors (sp : List (String × List String)) : List ERow :=
  (sp.filter (fun p => 1 < (p.2.filter pyTruthy).length)).map (fun p =>
    { etype := "Duplicate SSN with Different Plans", ssn := p.1
      first := none, last := none
      plan := String.intercalate ", " (pySorted p.2)
      eeA := none, eeB := none, erA := none, erB := none, sim := none })

/-- `reconcile.reconcile_two`, acting on the rows of two tables whose
columns already passed `_prepare`'s validation (the column layer is
`prepareCols`): coerce, outer-merge on the SSN‖plan key, and collect
the discrepancy rows. -/
def reconcileTwoRows (a b : List RawRow) (aName bName : String) (thr : ℚ) :
    List ERow :=
  let A := a.map coerceRow
  let B := b.map coerceRow
  let merged := mergeOuterBy keyOf A B
  let res := rowErrors thr aName bName merged []
  res.1 ++ dupErrors res.2

/-- Keep the first occurrence of each element (pandas first-occurrence
grouping order). -/
def firstDedup {α : Type} [DecidableEq α] : List α → List α
  | [] => []
  | x :: xs => x :: firstDedup (xs.filter (fun y => y ≠ x))
termination_by l => l.length
decreasing_by
  simp only [List.length_cons]
  exact Nat.lt_succ_of_le (List.length_filter_le _ _)

/-- Stable insertion for descending counts (`value_counts` sorts by
count, descending, stably). -/
def insertByCount (p : String × Nat) : List (String × Nat) → List (String × Nat)
  | [] => [p]
  | q :: qs => if p.2 ≤ q.2 then q :: insertByCount p qs else p :: q :: qs

def sortByCountDesc (l : List (String × Nat)) : List (String × Nat) :=
  l.foldl (fun acc p => insertByCount p acc) []

/-- `errors_df["Error Type"].value_counts()` on the list of error
types: one `(type, multiplicity)` entry per distinct type, sorted by
count descending. -/
def valueCounts (es : List String) : List (String × Nat) :=
  sortByCountDesc ((firstDedup es).map (fun k => (k, es.count k)))

/-- `reconcile._summarize`, acting on the list of error types of the
discrepancy rows: value counts plus a `Total` row whose count is the
sum of the counts; `[("Total", 0)]` on empty input. -/
def summarize (es : List String) : List (String × Nat) :=
  if es.isEmpty then [("Total", 0)]
  else
    let vc := valueCounts es
    vc ++ [("Total", vc.foldl (fun n p => n + p.2) 0)]

/-- The `__k` de-duplication key of `reconcile.reconcile_three`:
`Error Type + "|" + SSN + "|" + Plan Name`. -/
def tripleKey (e : ERow) : String := e.etype ++ "|" ++ e.ssn ++ "|" ++ e.plan

/-- `drop_duplicates` keeping the first row bearing each key. -/
def dropDupByKey (f : ERow → String) : List String → List ERow → List ERow
  | _, [] => []
  | seen, r :: rs =>
    if f r ∈ seen then dropDupByKey f seen rs
    else r :: dropDupByKey f (f r :: seen) rs

/-- `reconcile.reconcile_three` (errors part): the three pairwise
comparisons concatenated, then de-duplicated on
`(error type, SSN, plan)` via the `__k` string key. -/
def reconcileThree (p c b : List RawRow) (thr : ℚ) : List ERow :=
  let e1 := reconcileTwoRows p c "Payroll" "Carrier" thr
  let e2 := reconcileTwoRows p b "Payroll" "BenAdmin" thr
  let e3 := reconcileTwoRows c b "Carrier" "BenAdmin" thr
  let allErrs := e1 ++ e2 ++ e3
  if allErrs.isEmpty then allErrs else dropDupByKey tripleKey [] allErrs

/-! ### app.py -/

/-- `app.standardize_df`, SSN column: the object columns are first
stripped (line 620), then
`.str.replace(r"\D","",regex=True).str.zfill(9)` (line 628). -/
def standardizeSSN (s : String) : String :=
  pyZfill 9 (digitsOnly (pyStrip s))

/-- The `blank_is_zero` branch of `app.normalize_amounts` (line 652):
`replace(["", "-", "--"], 0).fillna(0)` on one cell. -/
def blankFix (blankIsZero : Bool) (c : Cell) : Cell :=
  if blankIsZero then
    match c with
    | .txt s => if s = "" ∨ s = "-" ∨ s = "--" then .num 0 else .txt s
    | .na => .num 0
    | x => x
  else c

/-- The numeric part of `app.normalize_amounts` (lines 654-658): round
to cents, round to the nearest multiple of `step = max(1, cents)`
cents, and `.round(2)`. -/
def bucketRound (toleranceCents : ℤ) (v : ℚ) : ℚ :=
  let v1 : ℚ := (pyRound (v * 100) : ℚ) / 100
  let step : ℤ := max 1 toleranceCents
  let v2 : ℚ :=
    if 0 < step then ((pyRound (v1 * 100 / (step : ℚ)) : ℚ) * (step : ℚ)) / 100
    else v1
  (pyRound (v2 * 100) : ℚ) / 100

/-- `app.normalize_amounts`, acting on one amount cell.  Note that the
`fillna(0 if blank_is_zero else 0)` of line 653 fills with 0 under
both settings of `blank_is_zero`, so non-numeric and missing cells
always become 0 after `to_numeric(..., errors="coerce")`. -/
def normalizeAmountCell (toleranceCents : ℤ) (blankIsZero : Bool) (c : Cell) : ℚ :=
  bucketRound toleranceCents ((toNumericCoerce (blankFix blankIsZero c)).getD 0)

/-- Python `int()` on a rational (truncation towards zero); used for
`int(threshold * 100)`. -/
def pyInt (q : ℚ) : ℤ := if 0 ≤ q then q.floor else -((-q).floor)

/-- `app._tol_ok`: amounts compared as integer cents
(`int(round(float(x) * 100))`, with `NaN` as 0) within
`max(0, cents)`. -/
def tolOk (a b : Option ℚ) (cents : ℤ) : Bool :=
  let aa : ℤ := match a with | none => 0 | some q => pyRound (q * 100)
  let bb : ℤ := match b with | none => 0 | some q => pyRound (q * 100)
  |aa - bb| ≤ max 0 cents

def FREQUENCY_FACTORS : List ℤ := [2, 4, 12, 24, 26, 52]

/-- The factor loop of `app._freq_ok`. -/
def freqLoop (aa bb slack : ℚ) : List ℤ → Bool × Option ℤ
  | [] => (false, none)
  | f :: fs =>
    if |aa - bb * (f : ℚ)| ≤ slack then (true, some f)
    else if |bb - aa * (f : ℚ)| ≤ slack then (true, some f)
    else freqLoop aa bb slack fs

/-- `app._freq_ok`: tolerance check first (factor 1), then the
pay-frequency factors within `tolerance + extra` slack. -/
def freqOk (a b : Option ℚ) (cents extraCents : ℤ) : Bool × Option ℤ :=
  if tolOk a b cents then (true, some 1)
  else
    let aa : ℚ := a.getD 0
    let bb : ℚ := b.getD 0
    let slack : ℚ := ((max 0 cents : ℤ) : ℚ) / 100 + ((max 0 extraCents : ℤ) : ℚ) / 100
    freqLoop aa bb slack FREQUENCY_FACTORS

/-- Lexicographic order on `(SSN, Plan Name)` group keys (Python tuple
comparison; `groupby` sorts its keys). -/
def pairLt (x y : String × String) : Bool :=
  strLt x.1 y.1 || (x.1 = y.1 && strLt x.2 y.2)

def sortedInsertPair (x : String × String) :
    List (String × String) → List (String × String)
  | [] => [x]
  | y :: ys => if pairLt x y then x :: y :: ys else y :: sortedInsertPair x ys

def sortPairs (l : List (String × String)) : List (String × String) :=
  l.foldl (fun acc x => sortedInsertPair x acc) []

/-- `app.totals_by_key_all`: group by `(SSN, Plan Name)` (keys sorted,
as `groupby` does), summing the amounts and keeping the first
first/last name of each group. -/
def totalsByKey (rows : List PRow) : List PRow :=
  let keys := sortPairs (firstDedup (rows.map (fun r => (r.ssn, r.plan))))
  keys.map (fun k =>
    let grp := rows.filter (fun r => r.ssn = k.1 ∧ r.plan = k.2)
    { ssn := k.1, plan := k.2
      first := ((grp.head?).map (fun r => r.first)).getD ""
      last := ((grp.head?).map (fun r => r.last)).getD ""
      ee := grp.foldl (fun s r => s + r.ee) 0
      er := grp.foldl (fun s r => s + r.er) 0 })

/-- One discrepancy row of the totals engine (`reconcile_totals_two`). -/
structure TERow where
  etype : String
  ssn : String
  first : Option String
  last : Option String
  plan : String
  eeA : Option ℚ
  eeB : Option ℚ
  erA : Option ℚ
  erB : Option ℚ
deriving DecidableEq

/-- Python `x or y` on optional strings, where `none` models `NaN`
(which is truthy) and the empty string is falsy. -/
def pyOrStr (x y : Option String) : Option String :=
  match x with
  | none => none
  | some s => if s = "" then y else some s

/-- `f and f != 1` on the factor slot reported by `_freq_ok`. -/
def factorResolved (o : Option ℤ) : Bool :=
  match o with
  | some k => k ≠ 0 ∧ k ≠ 1
  | none => false

/-- The per-row loop of `app.reconcile_totals_two` (lines 701-728):
missing-side rows, then the `_freq_ok` checks on both amount fields;
both passing with a non-trivial factor bumps `freq_resolved`; each
failing field emits its own mismatch row.  A present side always has
numeric amounts here (the app normalizes amounts first), so
`in_a`/`in_b` reduce to presence of the side. -/
def totalsRowErrors (cents : ℤ) (aName bName : String) :
    List (Option PRow × Option PRow) → List TERow × Nat
  | [] => ([], 0)
  | (oa, ob) :: rest =>
    let res := totalsRowErrors cents aName bName rest
    match oa, ob with
    | some a, none =>
      ({ etype := "Missing in " ++ bName, ssn := a.ssn
         first := pyOrStr (some a.first) none, last := pyOrStr (some a.last) none
         plan := a.plan, eeA := none, eeB := none, erA := none, erB := none } :: res.1,
       res.2)
    | none, some b =>
      ({ etype := "Missing in " ++ aName, ssn := b.ssn
         first := pyOrStr none (some b.first), last := pyOrStr none (some b.last)
         plan := b.plan, eeA := none, eeB := none, erA := none, erB := none } :: res.1,
       res.2)
    | none, none => res
    | some a, some b =>
      let okEE := freqOk (some a.ee) (some b.ee) cents 10
      let okER := freqOk (some a.er) (some b.er) cents 10
      if okEE.1 ∧ okER.1 then
        (res.1, res.2 + (if factorResolved okEE.2 ∨ factorResolved okER.2 then 1 else 0))
      else
        let e1 : List TERow :=
          if okEE.1 then []
          else [{ etype := "Employee Amount Mismatch", ssn := a.ssn
                  first := pyOrStr (some a.first) (some b.first)
                  last := pyOrStr (some a.last) (some b.last)
                  plan := a.plan, eeA := some a.ee, eeB := some b.ee
                  erA := none, erB := none }]
        let e2 : List TERow :=
          if okER.1 then []
          else [{ etype := "Employer Amount Mismatch", ssn := a.ssn
                  first := pyOrStr (some a.first) (some b.first)
                  last := pyOrStr (some a.last) (some b.last)
                  plan := a.plan, eeA := none, eeB := none
                  erA := some a.er, erB := some b.er }]
        (e1 ++ e2 ++ res.1, res.2)

/-- `app.reconcile_totals_two` (errors and `freq_resolved` count). -/
def reconcileTotalsTwo (a b : List PRow) (aName bName : String) (cents : ℤ) :
    List TERow × Nat :=
  let A := totalsByKey a
  let B := totalsByKey b
  let merged := mergeOuterBy (fun r => (r.ssn, r.plan)) A B
  totalsRowErrors cents aName bName merged

/-- `app.reconcile_totals_three`: the three pairwise totals
comparisons concatenated — with no de-duplication pass. -/
def reconcileTotalsThree (p c b : List PRow) (cents : ℤ) : List TERow × Nat :=
  let r1 := reconcileTotalsTwo p c "Payroll" "Carrier" cents
  let r2 := reconcileTotalsTwo p b "Payroll" "BenAdmin" cents
  let r3 := reconcileTotalsTwo c b "Carrier" "BenAdmin" cents
  (r1.1 ++ r2.1 ++ r3.1, r1.2 + r2.2 + r3.2)

/-! ### aliases.py -/

/-- The inner value loop of `aliases.normalize_alias_dict`. -/
def normAliasVals (key : String) (al : List String) : List String :=
  al.foldl (fun vals x =>
    let s := pyLower (pyStrip x)
    if s ≠ "" ∧ s ≠ key ∧ ¬ s ∈ vals then vals ++ [s] else vals) []

/-- `aliases.normalize_alias_dict` on an association-list model of the
dict (the raw dict's keys are distinct, and in the repository's alias
tables they stay distinct after normalization). -/
def normalizeAliasDict : List (String × List String) → List (String × List String)
  | [] => []
  | (canon, al) :: rest =>
    let key := pyLower (pyStrip canon)
    if key = "" then normalizeAliasDict rest
    else (key, normAliasVals key al) :: normalizeAliasDict rest

/-- The `for canon, al in aliases.items(): if s == canon or s in al`
scan of `normalize_with_aliases`. -/
def aliasScan (s : String) : List (String × List String) → Option String
  | [] => none
  | (canon, al) :: rest =>
    if s = canon ∨ s ∈ al then some canon else aliasScan s rest

/-- The expanded candidate pool: every canonical followed by its
aliases, in table order. -/
def expandedPool (aliases : List (String × List String)) : List String :=
  (aliases.map (fun p => p.1 :: p.2)).flatten

/-- The `backmap`, as the ordered list of assignments
(`backmap[canon] = canon`, then `backmap[x] = canon` per alias); a dict
lookup returns the latest assignment, so lookups search the reversed
list. -/
def backmapList (aliases : List (String × List String)) : List (String × String) :=
  (aliases.map (fun p => (p.1, p.1) :: p.2.map (fun x => (x, p.1)))).flatten

def backmapGet (aliases : List (String × List String)) (m : String) : String :=
  (((backmapList aliases).reverse).lookup m).getD m

/-- `rapidfuzz.process.extractOne(s, choices, scorer)`: the first
choice attaining the maximal score (strict improvement updates). -/
def extractOne (scorer : String → String → ℚ) (q : String) :
    List String → (String × ℚ) → String × ℚ
  | [], best => best
  | c :: cs, best =>
    let sc := scorer q c
    extractOne scorer q cs (if best.2 < sc then (c, sc) else best)

/-- `aliases.normalize_with_aliases`.  The rapidfuzz scorer
(`fuzz.token_sort_ratio`, scores 0-100) is an external library
function and is passed in as a parameter. -/
def normalizeWithAliases (scorer : String → String → ℚ) (name : String)
    (aliases : List (String × List String)) (threshold : ℚ) : String :=
  if ¬ pyTruthy name then name
  else
    let s := pyLower (pyStrip name)
    if ¬ pyTruthy s then name
    else if (aliases.lookup s).isSome then s
    else
      match aliasScan s aliases with
      | some canon => canon
      | none =>
        match expandedPool aliases with
        | [] => name
        | c :: cs =>
          let best := extractOne scorer s cs (c, scorer s c)
          if ((pyInt (threshold * 100)) : ℚ) ≤ best.2 then backmapGet aliases best.1
          else name

/-- `aliases.DEFAULT_ALIASES`. -/
def DEFAULT_ALIASES : List (String × List String) :=
  [("medical", ["health", "med", "medical plan", "health plan"]),
   ("dental", ["dent", "dntl"]),
   ("vision", ["vis", "vba"]),
   ("short term disability", ["std", "short-term disability", "short term dis", "short term"]),
   ("long term disability", ["ltd", "long-term disability", "long term dis", "long term"]),
   ("life", ["basic life", "group life", "life insurance"]),
   ("hsa", ["health savings account", "hsa plan"]),
   ("fsa", ["flexible spending account", "medical fsa", "fsa medical"])]

/-- No pipe character occurs in the string (the `__k` separator of
`reconcile_three`). -/
def noPipe (s : String) : Prop := ¬ '|' ∈ s.data

instance (s : String) : Decidable (noPipe s) := by
  unfold noPipe
  infer_instance

/-- `reconcile_three`'s de-duplication triple of an `ERow`. -/
def tripleOf (e : ERow) : String × String × String := (e.etype, e.ssn, e.plan)

/-- The error types a pairwise comparison can generate. -/
def pairErrorTypes (aName bName : String) : List String :=
  ["Missing in " ++ aName, "Missing in " ++ bName, "Plan Name Mismatch",
   "Employee Amount Mismatch", "Employer Amount Mismatch",
   "Duplicate SSN with Different Plans"]

/-- Validity of a `(besti, bestj, bestsize)` candidate for the window
`[alo, ahi) × [blo, bhi)` of `find_longest_match`. -/
def BestIn (alo ahi blo bhi : Nat) (best : Nat × Nat × Nat) : Prop :=
  alo ≤ best.1 ∧ best.1 + best.2.2 ≤ ahi ∧ blo ≤ best.2.1 ∧ best.2.1 + best.2.2 ≤ bhi

/-- The run length recorded by `find_longest_match`'s `j2len`
dictionary at row `i`, column `j` (for the self-comparison analysis):
the `+1`-chain along matched `(i-t, j-t)` positions admitted by the
`b2j` index. -/
def chainLen (b2jf : Char → List Nat) (x : List Char) : Nat → Nat → Nat
  | 0, j => if j ∈ b2jf (x.getD 0 ' ') then 1 else 0
  | i + 1, j =>
    if j ∈ b2jf (x.getD (i + 1) ' ') then
      (if j = 0 then 0 else chainLen b2jf x i (j - 1)) + 1
    else 0

/-! ## Supporting lemmas -/

lemma ratFloor_eq_intFloor (q : ℚ) : q.floor = ⌊q⌋ := rfl

/-- Python `round` lands within half a unit of its argument. -/
lemma pyRound_abs_sub_le (q : ℚ) : |(pyRound q : ℚ) - q| ≤ 1 / 2 := by
  have h1 : (⌊q⌋ : ℚ) ≤ q := Int.floor_le q
  have h2 : q < ⌊q⌋ + 1 := Int.lt_floor_add_one q
  simp only [pyRound, ratFloor_eq_intFloor]
  split_ifs with ha hb hc
  · rw [abs_le]; constructor <;> linarith
  · rw [abs_le]; push_cast; constructor <;> linarith
  · rw [abs_le]; constructor <;> linarith
  · rw [abs_le]; push_cast
    have : q - ⌊q⌋ = 1 / 2 := by linarith
    constructor <;> linarith

/-- Python `round` is the identity on integers. -/
lemma pyRound_intCast (n : ℤ) : pyRound (n : ℚ) = n := by
  simp only [pyRound, ratFloor_eq_intFloor, Int.floor_intCast]
  norm_num

lemma pyRound_zero : pyRound 0 = 0 := by
  have h := pyRound_intCast 0
  simpa using h

lemma lookup_isSome_of_mem_keys {β : Type} (l : List (String × β)) (k : String)
    (h : k ∈ l.map Prod.fst) : (l.lookup k).isSome := by
  induction l with
  | nil => simp at h
  | cons p rest ih =>
    simp only [List.map_cons, List.mem_cons] at h
    by_cases hk : k = p.1
    · simp [List.lookup, hk]
    · have : k ∈ rest.map Prod.fst := by
        rcases h with h | h
        · exact absurd h hk
        · exact h
      have hbeq : (k == p.1) = false := by
        simp only [beq_eq_false_iff_ne, ne_eq]; exact hk
      simp only [List.lookup, hbeq]
      exact ih this

lemma firstDedup_mem {α : Type} [DecidableEq α] (l : List α) (a : α) :
    a ∈ firstDedup l ↔ a ∈ l := by
  induction l using firstDedup.induct with
  | case1 => simp [firstDedup]
  | case2 x xs ih =>
    rw [firstDedup]
    simp only [List.mem_cons]
    constructor
    · rintro (rfl | h)
      · exact Or.inl rfl
      · rcases (ih.mp h) with h'
        exact Or.inr (List.mem_of_mem_filter h')
    · rintro (rfl | h)
      · exact Or.inl rfl
      · by_cases hx : a = x
        · exact Or.inl hx
        · exact Or.inr (ih.mpr (List.mem_filter.mpr ⟨h, by simpa using hx⟩))

lemma firstDedup_nodup {α : Type} [DecidableEq α] (l : List α) :
    (firstDedup l).Nodup := by
  induction l using firstDedup.induct with
  | case1 => simp [firstDedup]
  | case2 x xs ih =>
    rw [firstDedup]
    refine List.nodup_cons.mpr ⟨?_, ih⟩
    intro hx
    have := (firstDedup_mem _ _).mp hx
    simp at this

lemma insertByCount_perm (p : String × Nat) (l : List (String × Nat)) :
    (insertByCount p l).Perm (p :: l) := by
  induction l with
  | nil => exact List.Perm.refl _
  | cons q qs ih =>
    simp only [insertByCount]
    split
    · exact (ih.cons q).trans (List.Perm.swap p q qs)
    · exact List.Perm.refl _

lemma foldl_insertByCount_perm :
    ∀ (l acc : List (String × Nat)),
      (l.foldl (fun acc p => insertByCount p acc) acc).Perm (acc ++ l) := by
  intro l
  induction l with
  | nil => intro acc; simp
  | cons p ps ih =>
    intro acc
    have h1 := ih (insertByCount p acc)
    have h2 : (insertByCount p acc ++ ps).Perm (acc ++ p :: ps) := by
      have := (insertByCount_perm p acc).append_right ps
      exact this.trans (List.perm_middle.symm)
    simp only [List.foldl_cons]
    exact h1.trans h2

lemma valueCounts_perm (es : List String) :
    (valueCounts es).Perm ((firstDedup es).map (fun k => (k, es.count k))) :=
  by simpa [valueCounts, sortByCountDesc] using
    foldl_insertByCount_perm ((firstDedup es).map (fun k => (k, es.count k))) []

lemma mem_valueCounts (es : List String) (t : String) (m : Nat) :
    (t, m) ∈ valueCounts es ↔ (t ∈ es ∧ m = es.count t) := by
  rw [(valueCounts_perm es).mem_iff]
  simp only [List.mem_map, Prod.mk.injEq]
  constructor
  · rintro ⟨k, hk, rfl, rfl⟩
    exact ⟨(firstDedup_mem es k).mp hk, rfl⟩
  · rintro ⟨ht, rfl⟩
    exact ⟨t, (firstDedup_mem es t).mpr ht, rfl, rfl⟩

lemma valueCounts_keys_perm (es : List String) :
    ((valueCounts es).map Prod.fst).Perm (firstDedup es) := by
  have h := (valueCounts_perm es).map Prod.fst
  rw [List.map_map] at h
  have hid : (Prod.fst ∘ fun k => (k, es.count k)) = fun (k : String) => k := rfl
  rw [hid, List.map_id'] at h
  exact h

lemma freqLoop_of_mem (aa bb slack : ℚ) :
    ∀ (fs : List ℤ) (f : ℤ), f ∈ fs →
      (|aa - bb * (f : ℚ)| ≤ slack ∨ |bb - aa * (f : ℚ)| ≤ slack) →
      (freqLoop aa bb slack fs).1 = true := by
  intro fs
  induction fs with
  | nil => intro f hf _; simp at hf
  | cons g gs ih =>
    intro f hf hcond
    simp only [freqLoop]
    split_ifs with h1 h2
    · rfl
    · rfl
    · rcases List.mem_cons.mp hf with rfl | hf'
      · rcases hcond with hc | hc
        · exact absurd hc h1
        · exact absurd hc h2
      · exact ih f hf' hcond

lemma append_pipe_inj :
    ∀ (x1 : List Char) (x2 : List Char) (y1 y2 : List Char),
      ¬ '|' ∈ x1 → ¬ '|' ∈ x2 →
      x1 ++ '|' :: y1 = x2 ++ '|' :: y2 → x1 = x2 ∧ y1 = y2 := by
  intro x1
  induction x1 with
  | nil =>
    intro x2 y1 y2 _ hx2 heq
    cases x2 with
    | nil => simpa using heq
    | cons c x2' =>
      simp only [List.nil_append, List.cons_append, List.cons.injEq] at heq
      exact absurd (heq.1 ▸ List.mem_cons_self c x2') hx2
  | cons c x1' ih =>
    intro x2 y1 y2 hx1 hx2 heq
    cases x2 with
    | nil =>
      simp only [List.cons_append, List.nil_append, List.cons.injEq] at heq
      exact absurd (heq.1 ▸ List.mem_cons_self c x1') hx1
    | cons d x2' =>
      simp only [List.cons_append, List.cons.injEq] at heq
      obtain ⟨rfl, htail⟩ := heq
      have hx1' : ¬ '|' ∈ x1' := fun h => hx1 (List.mem_cons_of_mem _ h)
      have hx2' : ¬ '|' ∈ x2' := fun h => hx2 (List.mem_cons_of_mem _ h)
      obtain ⟨h1, h2⟩ := ih x2' y1 y2 hx1' hx2' htail
      exact ⟨by rw [h1], h2⟩

lemma tripleKey_data (e : ERow) :
    (tripleKey e).data = e.etype.data ++ '|' :: (e.ssn.data ++ '|' :: e.plan.data) := by
  simp only [tripleKey, String.data_append]
  simp [List.append_assoc]

/-- On rows whose error type and SSN are pipe-free, the `__k` string
key determines the `(error type, SSN, plan)` triple. -/
lemma tripleKey_inj (e1 e2 : ERow)
    (h1e : noPipe e1.etype) (h1s : noPipe e1.ssn)
    (h2e : noPipe e2.etype) (h2s : noPipe e2.ssn)
    (hk : tripleKey e1 = tripleKey e2) :
    (e1.etype, e1.ssn, e1.plan) = (e2.etype, e2.ssn, e2.plan) := by
  have hd : (tripleKey e1).data = (tripleKey e2).data := by rw [hk]
  rw [tripleKey_data, tripleKey_data] at hd
  obtain ⟨ha, hrest⟩ := append_pipe_inj _ _ _ _ h1e h2e hd
  obtain ⟨hb, hc⟩ := append_pipe_inj _ _ _ _ h1s h2s hrest
  have he1 : e1.etype = e2.etype := String.ext ha
  have he2 : e1.ssn = e2.ssn := String.ext hb
  have he3 : e1.plan = e2.plan := String.ext hc
  rw [he1, he2, he3]

lemma dropDupByKey_key_not_seen (f : ERow → String) :
    ∀ (l : List ERow) (seen : List String) (r : ERow),
      r ∈ dropDupByKey f seen l → ¬ f r ∈ seen := by
  intro l
  induction l with
  | nil => intro seen r hr; simp [dropDupByKey] at hr
  | cons r0 rs ih =>
    intro seen r hr
    simp only [dropDupByKey] at hr
    by_cases h0 : f r0 ∈ seen
    · rw [if_pos h0] at hr
      exact ih seen r hr
    · rw [if_neg h0] at hr
      rcases List.mem_cons.mp hr with rfl | hr'
      · exact h0
      · have := ih (f r0 :: seen) r hr'
        intro hmem
        exact this (List.mem_cons_of_mem _ hmem)

lemma tripleKey_congr (e1 e2 : ERow) (h : tripleOf e1 = tripleOf e2) :
    tripleKey e1 = tripleKey e2 := by
  simp only [tripleOf, Prod.mk.injEq] at h
  simp only [tripleKey, h.1, h.2.1, h.2.2]

/-- First-occurrence de-duplication on the `__k` key, restricted to any
one triple `t`: provided the key is injective on the triples of the
list, exactly the first row bearing `t` survives. -/
lemma dropDup_filter_triple (t : String × String × String) :
    ∀ (l : List ERow) (seen : List String),
      (∀ r1 ∈ l, ∀ r2 ∈ l, tripleKey r1 = tripleKey r2 → tripleOf r1 = tripleOf r2) →
      (∀ r ∈ l, tripleOf r = t → ¬ tripleKey r ∈ seen) →
      (dropDupByKey tripleKey seen l).filter (fun e => tripleOf e = t) =
        (l.filter (fun e => tripleOf e = t)).take 1 := by
  intro l
  induction l with
  | nil => intro seen _ _; simp [dropDupByKey]
  | cons r rs ih =>
    intro seen hinj hseen
    have hinj' : ∀ r1 ∈ rs, ∀ r2 ∈ rs, tripleKey r1 = tripleKey r2 →
        tripleOf r1 = tripleOf r2 := fun r1 h1 r2 h2 =>
      hinj r1 (List.mem_cons_of_mem _ h1) r2 (List.mem_cons_of_mem _ h2)
    simp only [dropDupByKey]
    by_cases h0 : tripleKey r ∈ seen
    · rw [if_pos h0]
      have hrt : ¬ tripleOf r = t := fun h =>
        hseen r (List.mem_cons_self r rs) h h0
      have hfr : (r :: rs).filter (fun e => tripleOf e = t) =
          rs.filter (fun e => tripleOf e = t) := by
        rw [List.filter_cons_of_neg]
        simpa using hrt
      rw [hfr]
      exact ih seen hinj' (fun e he het => hseen e (List.mem_cons_of_mem _ he) het)
    · rw [if_neg h0]
      by_cases hrt : tripleOf r = t
      · have hfr : (r :: (dropDupByKey tripleKey (tripleKey r :: seen) rs)).filter
            (fun e => tripleOf e = t) =
            r :: (dropDupByKey tripleKey (tripleKey r :: seen) rs).filter
              (fun e => tripleOf e = t) := by
          rw [List.filter_cons_of_pos]
          simpa using hrt
        rw [hfr]
        have htail : (dropDupByKey tripleKey (tripleKey r :: seen) rs).filter
            (fun e => tripleOf e = t) = [] := by
          rw [List.filter_eq_nil_iff]
          intro e he
          simp only [decide_eq_true_eq]
          intro het
          have hkey : tripleKey e = tripleKey r :=
            tripleKey_congr e r (het.trans hrt.symm)
          have := dropDupByKey_key_not_seen tripleKey rs (tripleKey r :: seen) e he
          exact this (hkey ▸ List.mem_cons_self _ _)
        rw [htail]
        have hrhs : (r :: rs).filter (fun e => tripleOf e = t) =
            r :: rs.filter (fun e => tripleOf e = t) := by
          rw [List.filter_cons_of_pos]
          simpa using hrt
        rw [hrhs]
        simp
      · have hfl : (r :: (dropDupByKey tripleKey (tripleKey r :: seen) rs)).filter
            (fun e => tripleOf e = t) =
            (dropDupByKey tripleKey (tripleKey r :: seen) rs).filter
              (fun e => tripleOf e = t) := by
          rw [List.filter_cons_of_neg]
          simpa using hrt
        have hrhs : (r :: rs).filter (fun e => tripleOf e = t) =
            rs.filter (fun e => tripleOf e = t) := by
          rw [List.filter_cons_of_neg]
          simpa using hrt
        rw [hfl, hrhs]
        refine ih (tripleKey r :: seen) hinj' ?_
        intro e he het
        intro hmem
        rcases List.mem_cons.mp hmem with hkey | hkey
        · have := hinj r (List.mem_cons_self r rs) e (List.mem_cons_of_mem _ he)
            hkey.symm
          exact hrt (this.trans het)
        · exact hseen e (List.mem_cons_of_mem _ he) het hkey

/-! Pipe-freeness of the rows generated by the row-level engine. -/

lemma noPipe_digitsOnly (s : String) : noPipe (digitsOnly s) := by
  unfold noPipe digitsOnly
  intro h
  have := List.of_mem_filter h
  simp at this

lemma noPipe_append (s u : String) (hs : noPipe s) (hu : noPipe u) :
    noPipe (s ++ u) := by
  unfold noPipe at hs hu ⊢
  rw [String.data_append]
  intro h
  rcases List.mem_append.mp h with h | h
  · exact hs h
  · exact hu h

lemma updPlans_keys :
    ∀ (sp : List (String × List String)) (ssn pa pb : String),
      (∀ q ∈ sp, noPipe q.1) → noPipe ssn →
      ∀ q ∈ updPlans sp ssn pa pb, noPipe q.1 := by
  intro sp
  induction sp with
  | nil =>
    intro ssn pa pb _ hssn q hq
    simp only [updPlans, List.mem_singleton] at hq
    rw [hq]
    exact hssn
  | cons p rest ih =>
    intro ssn pa pb hsp hssn q hq
    simp only [updPlans] at hq
    by_cases hps : p.1 = ssn
    · rw [if_pos hps] at hq
      rcases List.mem_cons.mp hq with rfl | hq'
      · exact hsp p (List.mem_cons_self _ _)
      · exact hsp q (List.mem_cons_of_mem _ hq')
    · rw [if_neg hps] at hq
      rcases List.mem_cons.mp hq with rfl | hq'
      · exact hsp p (List.mem_cons_self _ _)
      · exact ih ssn pa pb (fun q' hq' => hsp q' (List.mem_cons_of_mem _ hq')) hssn q hq'

lemma mergeOuterBy_mem {κ : Type} [DecidableEq κ] (key : PRow → κ)
    (A B : List PRow) (pr : Option PRow × Option PRow)
    (h : pr ∈ mergeOuterBy key A B) :
    (∀ a, pr.1 = some a → a ∈ A) ∧ (∀ b, pr.2 = some b → b ∈ B) := by
  simp only [mergeOuterBy] at h
  rcases List.mem_append.mp h with h | h
  · rcases List.mem_flatten.mp h with ⟨grp, hgrp, hpr⟩
    rcases List.mem_map.mp hgrp with ⟨a, ha, hga⟩
    by_cases hms : (B.filter (fun b => key b = key a)).isEmpty
    · rw [← hga, if_pos hms] at hpr
      simp only [List.mem_singleton] at hpr
      subst hpr
      constructor
      · intro a' ha'
        simp only [Option.some.injEq] at ha'
        exact ha' ▸ ha
      · intro b hb
        simp at hb
    · rw [← hga, if_neg hms] at hpr
      rcases List.mem_map.mp hpr with ⟨b, hb, hprb⟩
      subst hprb
      constructor
      · intro a' ha'
        simp only [Option.some.injEq] at ha'
        exact ha' ▸ ha
      · intro b' hb'
        simp only [Option.some.injEq] at hb'
        exact hb' ▸ List.mem_of_mem_filter hb
  · rcases List.mem_map.mp h with ⟨b, hb, hprb⟩
    subst hprb
    constructor
    · intro a' ha'
      simp at ha'
    · intro b' hb'
      simp only [Option.some.injEq] at hb'
      exact hb' ▸ List.mem_of_mem_filter hb

lemma rowErrors_inv (thr : ℚ) (aName bName : String) :
    ∀ (ms : List (Option PRow × Option PRow)) (sp : List (String × List String)),
      (∀ pr ∈ ms, (∀ a, pr.1 = some a → noPipe a.ssn) ∧
        (∀ b, pr.2 = some b → noPipe b.ssn)) →
      (∀ q ∈ sp, noPipe q.1) →
      (∀ e ∈ (rowErrors thr aName bName ms sp).1,
        e.etype ∈ pairErrorTypes aName bName ∧ noPipe e.ssn) ∧
      (∀ q ∈ (rowErrors thr aName bName ms sp).2, noPipe q.1) := by
  intro ms
  induction ms with
  | nil =>
    intro sp _ hsp
    simp only [rowErrors]
    exact ⟨fun e he => by simp at he, hsp⟩
  | cons pr rest ih =>
    intro sp hms hsp
    have hpr := hms pr (List.mem_cons_self _ _)
    have hrest : ∀ pr' ∈ rest, (∀ a, pr'.1 = some a → noPipe a.ssn) ∧
        (∀ b, pr'.2 = some b → noPipe b.ssn) :=
      fun pr' h => hms pr' (List.mem_cons_of_mem _ h)
    obtain ⟨oa, ob⟩ := pr
    cases oa with
    | some a =>
      have hass : noPipe a.ssn := hpr.1 a rfl
      cases ob with
      | none =>
        simp only [rowErrors]
        have hres := ih sp hrest hsp
        refine ⟨?_, hres.2⟩
        intro e he
        rcases List.mem_cons.mp he with rfl | he'
        · refine ⟨by simp [pairErrorTypes, errRow], by simpa [errRow] using hass⟩
        · exact hres.1 e he'
      | some b =>
        simp only [rowErrors]
        have hsp' : ∀ q ∈ (if pyTruthy a.ssn = true then
            updPlans sp a.ssn (normalizePlanName a.plan) (normalizePlanName b.plan)
            else sp), noPipe q.1 := by
          split
          · exact updPlans_keys sp a.ssn _ _ hsp hass
          · exact hsp
        have hres := ih _ hrest hsp'
        refine ⟨?_, hres.2⟩
        intro e he
        simp only [List.mem_append] at he
        rcases he with ((he | he) | he) | he
        · by_cases hc : planSimilarity a.plan b.plan < thr
          · rw [if_pos hc] at he
            rcases List.mem_singleton.mp he with rfl
            exact ⟨by simp [pairErrorTypes, errRow], by simpa [errRow] using hass⟩
          · rw [if_neg hc] at he
            simp at he
        · by_cases hc : a.ee ≠ b.ee
          · rw [if_pos hc] at he
            rcases List.mem_singleton.mp he with rfl
            exact ⟨by simp [pairErrorTypes, errRow], by simpa [errRow] using hass⟩
          · rw [if_neg hc] at he
            simp at he
        · by_cases hc : a.er ≠ b.er
          · rw [if_pos hc] at he
            rcases List.mem_singleton.mp he with rfl
            exact ⟨by simp [pairErrorTypes, errRow], by simpa [errRow] using hass⟩
          · rw [if_neg hc] at he
            simp at he
        · exact hres.1 e he
    | none =>
      cases ob with
      | none =>
        simp only [rowErrors]
        exact ih sp hrest hsp
      | some b =>
        have hbss : noPipe b.ssn := hpr.2 b rfl
        simp only [rowErrors]
        have hres := ih sp hrest hsp
        refine ⟨?_, hres.2⟩
        intro e he
        rcases List.mem_cons.mp he with rfl | he'
        · refine ⟨by simp [pairErrorTypes, errRow], by simpa [errRow] using hbss⟩
        · exact hres.1 e he'

lemma dupErrors_inv (sp : List (String × List String))
    (hsp : ∀ q ∈ sp, noPipe q.1) :
    ∀ e ∈ dupErrors sp,
      e.etype = "Duplicate SSN with Different Plans" ∧ noPipe e.ssn := by
  intro e he
  simp only [dupErrors] at he
  rcases List.mem_map.mp he with ⟨q, hq, hqe⟩
  subst hqe
  exact ⟨rfl, hsp q (List.mem_of_mem_filter hq)⟩

/-- Every discrepancy row generated by the row-level engine has a
pipe-free error type (when the source names are pipe-free) and a
pipe-free SSN (the SSN column is digits-only after coercion). -/
lemma reconcileTwoRows_inv (a b : List RawRow) (aName bName : String) (thr : ℚ)
    (hA : noPipe aName) (hB : noPipe bName) :
    ∀ e ∈ reconcileTwoRows a b aName bName thr, noPipe e.etype ∧ noPipe e.ssn := by
  intro e he
  simp only [reconcileTwoRows] at he
  have hmerged : ∀ pr ∈ mergeOuterBy keyOf (a.map coerceRow) (b.map coerceRow),
      (∀ x, pr.1 = some x → noPipe x.ssn) ∧ (∀ y, pr.2 = some y → noPipe y.ssn) := by
    intro pr hpr
    have h := mergeOuterBy_mem keyOf _ _ pr hpr
    constructor
    · intro x hx
      have := h.1 x hx
      rcases List.mem_map.mp this with ⟨raw, _, hraw⟩
      rw [← hraw]
      exact noPipe_digitsOnly raw.ssn
    · intro y hy
      have := h.2 y hy
      rcases List.mem_map.mp this with ⟨raw, _, hraw⟩
      rw [← hraw]
      exact noPipe_digitsOnly raw.ssn
  have hmain := rowErrors_inv thr aName bName
    (mergeOuterBy keyOf (a.map coerceRow) (b.map coerceRow)) [] hmerged (by simp)
  have htypes : ∀ t ∈ pairErrorTypes aName bName, noPipe t := by
    intro t ht
    have hmiss : noPipe ("Missing in " : String) := by decide
    simp only [pairErrorTypes, List.mem_cons, List.not_mem_nil, or_false] at ht
    rcases ht with rfl | rfl | rfl | rfl | rfl | rfl
    · exact noPipe_append _ _ hmiss hA
    · exact noPipe_append _ _ hmiss hB
    · decide
    · decide
    · decide
    · decide
  rcases List.mem_append.mp he with he | he
  · have := hmain.1 e he
    exact ⟨htypes e.etype this.1, this.2⟩
  · have := dupErrors_inv _ hmain.2 e he
    exact ⟨this.1 ▸ (by decide : noPipe "Duplicate SSN with Different Plans"), this.2⟩

/-! Bounds on `find_longest_match` and the matching total. -/

lemma flmInner_bound (i alo ahi blo bhi : Nat) (hialo : alo ≤ i) (hiahi : i < ahi)
    (d : Nat → Nat) (hd : ∀ j, d j ≤ i - alo ∧ d j ≤ j + 1 - blo) :
    ∀ (js : List Nat) (newd : Nat → Nat) (best : Nat × Nat × Nat),
      (∀ j, newd j ≤ i + 1 - alo ∧ newd j ≤ j + 1 - blo) →
      BestIn alo ahi blo bhi best →
      (∀ j, (flmInner blo bhi i d js newd best).1 j ≤ i + 1 - alo ∧
        (flmInner blo bhi i d js newd best).1 j ≤ j + 1 - blo) ∧
      BestIn alo ahi blo bhi (flmInner blo bhi i d js newd best).2 := by
  intro js
  induction js with
  | nil => intro newd best hnew hbest; exact ⟨hnew, hbest⟩
  | cons j js ih =>
    intro newd best hnew hbest
    simp only [flmInner]
    by_cases h1 : j < blo
    · rw [if_pos h1]
      exact ih newd best hnew hbest
    · rw [if_neg h1]
      by_cases h2 : bhi ≤ j
      · rw [if_pos h2]
        exact ⟨hnew, hbest⟩
      · rw [if_neg h2]
        have hk1 : (if j = 0 then 0 else d (j - 1)) + 1 ≤ i + 1 - alo := by
          by_cases hj : j = 0
          · rw [if_pos hj]; omega
          · rw [if_neg hj]
            have := (hd (j - 1)).1
            omega
        have hk2 : (if j = 0 then 0 else d (j - 1)) + 1 ≤ j + 1 - blo := by
          by_cases hj : j = 0
          · rw [if_pos hj]; omega
          · rw [if_neg hj]
            have := (hd (j - 1)).2
            omega
        apply ih
        · intro j'
          by_cases hj' : j' = j
          · simp only [if_pos hj']
            constructor
            · exact hk1
            · rw [hj']; exact hk2
          · simp only [if_neg hj']
            exact hnew j'
        · obtain ⟨hb1, hb2, hb3, hb4⟩ := hbest
          by_cases hup : best.2.2 < (if j = 0 then 0 else d (j - 1)) + 1
          · rw [if_pos hup]
            refine ⟨?_, ?_, ?_, ?_⟩ <;> simp only <;> omega
          · rw [if_neg hup]
            exact ⟨hb1, hb2, hb3, hb4⟩

lemma flmRows_bound (a : List Char) (b2jf : Char → List Nat)
    (alo ahi blo bhi : Nat) :
    ∀ (m i : Nat) (d : Nat → Nat) (best : Nat × Nat × Nat),
      alo ≤ i → i + m ≤ ahi →
      (∀ j, d j ≤ i - alo ∧ d j ≤ j + 1 - blo) →
      BestIn alo ahi blo bhi best →
      BestIn alo ahi blo bhi (flmRows a b2jf blo bhi (List.range' i m) d best) := by
  intro m
  induction m with
  | zero =>
    intro i d best _ _ _ hbest
    simpa [flmRows] using hbest
  | succ m ih =>
    intro i d best h1 h2 hd hbest
    rw [List.range'_succ]
    simp only [flmRows]
    have hz : ∀ j, (fun _ : Nat => 0) j ≤ i + 1 - alo ∧ (fun _ : Nat => 0) j ≤ j + 1 - blo := by
      intro j; exact ⟨Nat.zero_le _, Nat.zero_le _⟩
    have hres := flmInner_bound i alo ahi blo bhi h1 (by omega) d hd
      (b2jf (a.getD i ' ')) (fun _ => 0) best hz hbest
    exact ih (i + 1) _ _ (by omega) (by omega)
      (fun j => by simpa using hres.1 j) hres.2

lemma extBack_bestIn (a b : List Char) (alo blo ahi bhi : Nat) :
    ∀ (fuel bi bj bk : Nat), BestIn alo ahi blo bhi (bi, bj, bk) →
      BestIn alo ahi blo bhi (extBack a b alo blo fuel bi bj bk) := by
  intro fuel
  induction fuel with
  | zero => intro bi bj bk h; exact h
  | succ fuel ih =>
    intro bi bj bk h
    have h1 : alo ≤ bi := h.1
    have h2 : bi + bk ≤ ahi := h.2.1
    have h3 : blo ≤ bj := h.2.2.1
    have h4 : bj + bk ≤ bhi := h.2.2.2
    simp only [extBack]
    split
    · next hcond =>
      obtain ⟨hc1, hc2, _⟩ := hcond
      refine ih (bi - 1) (bj - 1) (bk + 1) ⟨?_, ?_, ?_, ?_⟩
      · show alo ≤ bi - 1; omega
      · show bi - 1 + (bk + 1) ≤ ahi; omega
      · show blo ≤ bj - 1; omega
      · show bj - 1 + (bk + 1) ≤ bhi; omega
    · exact h

lemma extFwd_bound (a b : List Char) (ahi bhi bi bj : Nat) :
    ∀ (fuel bk : Nat), bi + bk ≤ ahi → bj + bk ≤ bhi →
      bi + extFwd a b ahi bhi bi bj fuel bk ≤ ahi ∧
      bj + extFwd a b ahi bhi bi bj fuel bk ≤ bhi := by
  intro fuel
  induction fuel with
  | zero => intro bk h1 h2; exact ⟨h1, h2⟩
  | succ fuel ih =>
    intro bk h1 h2
    simp only [extFwd]
    split
    · next hcond => exact ih (bk + 1) (by omega) (by omega)
    · exact ⟨h1, h2⟩

lemma findLongestMatch_bestIn (a b : List Char) (b2jf : Char → List Nat)
    (alo ahi blo bhi : Nat) (h1 : alo ≤ ahi) (h2 : blo ≤ bhi) :
    BestIn alo ahi blo bhi (findLongestMatch a b b2jf alo ahi blo bhi) := by
  simp only [findLongestMatch]
  have hrows := flmRows_bound a b2jf alo ahi blo bhi (ahi - alo) alo
    (fun _ => 0) (alo, blo, 0) (le_refl alo) (by omega)
    (fun j => ⟨Nat.zero_le _, Nat.zero_le _⟩)
    ⟨le_refl alo, by show alo + 0 ≤ ahi; omega, le_refl blo, by show blo + 0 ≤ bhi; omega⟩
  set best := flmRows a b2jf blo bhi (List.range' alo (ahi - alo)) (fun _ => 0)
    (alo, blo, 0) with hbestdef
  have hext := extBack_bestIn a b alo blo ahi bhi best.1 best.1 best.2.1 best.2.2
    (by simpa using hrows)
  set ext := extBack a b alo blo best.1 best.1 best.2.1 best.2.2 with hextdef
  obtain ⟨he1, he2, he3, he4⟩ := hext
  have hfwd := extFwd_bound a b ahi bhi ext.1 ext.2.1 ahi ext.2.2 he2 he4
  exact ⟨he1, hfwd.1, he3, hfwd.2⟩

lemma matchingTotalF_le (a b : List Char) (b2jf : Char → List Nat) :
    ∀ (fuel alo ahi blo bhi : Nat), alo ≤ ahi → blo ≤ bhi →
      matchingTotalF a b b2jf fuel alo ahi blo bhi ≤ ahi - alo ∧
      matchingTotalF a b b2jf fuel alo ahi blo bhi ≤ bhi - blo := by
  intro fuel
  induction fuel with
  | zero => intro alo ahi blo bhi _ _; exact ⟨Nat.zero_le _, Nat.zero_le _⟩
  | succ fuel ih =>
    intro alo ahi blo bhi h1 h2
    simp only [matchingTotalF]
    by_cases hk : (findLongestMatch a b b2jf alo ahi blo bhi).2.2 = 0
    · rw [if_pos hk]
      exact ⟨Nat.zero_le _, Nat.zero_le _⟩
    · rw [if_neg hk]
      obtain ⟨hb1, hb2, hb3, hb4⟩ := findLongestMatch_bestIn a b b2jf alo ahi blo bhi h1 h2
      have hl := ih alo (findLongestMatch a b b2jf alo ahi blo bhi).1 blo
        (findLongestMatch a b b2jf alo ahi blo bhi).2.1 hb1 hb3
      have hr := ih ((findLongestMatch a b b2jf alo ahi blo bhi).1 +
          (findLongestMatch a b b2jf alo ahi blo bhi).2.2) ahi
        ((findLongestMatch a b b2jf alo ahi blo bhi).2.1 +
          (findLongestMatch a b b2jf alo ahi blo bhi).2.2) bhi (by omega) (by omega)
      constructor
      · have := hl.1
        have := hr.1
        omega
      · have := hl.2
        have := hr.2
        omega

/-- The ratio is always within `[0, 1]`. -/
lemma seqRatio_bounds (a b : List Char) : 0 ≤ seqRatio a b ∧ seqRatio a b ≤ 1 := by
  simp only [seqRatio]
  by_cases h : a.length + b.length = 0
  · rw [if_pos h]
    norm_num
  · rw [if_neg h]
    have hm := matchingTotalF_le a b (b2jOf b) (a.length + b.length + 1)
      0 a.length 0 b.length (Nat.zero_le _) (Nat.zero_le _)
    set m := matchingTotalF a b (b2jOf b) (a.length + b.length + 1)
      0 a.length 0 b.length with hmdef
    have ht : (0 : ℚ) < ((a.length + b.length : Nat) : ℚ) := by
      have : 0 < a.length + b.length := Nat.pos_of_ne_zero h
      exact_mod_cast this
    constructor
    · positivity
    · rw [div_le_one ht]
      have h2m : 2 * m ≤ a.length + b.length := by
        have := hm.1
        have := hm.2
        omega
      calc 2 * (m : ℚ) = ((2 * m : Nat) : ℚ) := by push_cast; ring
        _ ≤ ((a.length + b.length : Nat) : ℚ) := by exact_mod_cast h2m

/-! Reflexivity of the matcher: characterizing `b2j` and the `j2len`
chains for a sequence compared against itself. -/

lemma getD_of_get? (x : List Char) (j : Nat) (c : Char) (h : x.get? j = some c) :
    x.getD j ' ' = c := by
  rw [List.getD_eq_getElem?_getD, ← List.get?_eq_getElem?, h]
  rfl

lemma get?_of_lt (x : List Char) (j : Nat) (h : j < x.length) :
    x.get? j = some (x.getD j ' ') := by
  cases hg : x.get? j with
  | none => exact absurd (List.get?_eq_none.mp hg) (by omega)
  | some a =>
    rw [List.getD_eq_getElem?_getD, ← List.get?_eq_getElem?, hg]
    rfl

lemma positionsOf_mem (c : Char) :
    ∀ (l : List Char) (i j : Nat),
      j ∈ positionsOf c l i ↔ (i ≤ j ∧ l.get? (j - i) = some c) := by
  intro l
  induction l with
  | nil => intro i j; simp [positionsOf]
  | cons d ds ih =>
    intro i j
    simp only [positionsOf]
    by_cases hd : d = c
    · rw [if_pos hd]
      subst hd
      simp only [List.mem_cons]
      constructor
      · rintro (rfl | hj)
        · exact ⟨le_refl _, by simp⟩
        · obtain ⟨hij, hget⟩ := (ih (i + 1) j).mp hj
          refine ⟨by omega, ?_⟩
          have hs : j - i = (j - (i + 1)) + 1 := by omega
          rw [hs]
          simpa using hget
      · rintro ⟨hij, hget⟩
        by_cases hji : j = i
        · exact Or.inl hji
        · right
          apply (ih (i + 1) j).mpr
          refine ⟨by omega, ?_⟩
          have hs : j - i = (j - (i + 1)) + 1 := by omega
          rw [hs] at hget
          simpa using hget
    · rw [if_neg hd]
      rw [ih (i + 1) j]
      constructor
      · rintro ⟨hij, hget⟩
        refine ⟨by omega, ?_⟩
        have hs : j - i = (j - (i + 1)) + 1 := by omega
        rw [hs]
        simpa using hget
      · rintro ⟨hij, hget⟩
        by_cases hji : j = i
        · subst hji
          simp only [Nat.sub_self, List.get?_cons_zero, Option.some.injEq] at hget
          exact absurd hget hd
        · refine ⟨by omega, ?_⟩
          have hs : j - i = (j - (i + 1)) + 1 := by omega
          rw [hs] at hget
          simpa using hget

lemma positionsOf_pairwise (c : Char) :
    ∀ (l : List Char) (i : Nat), List.Pairwise (· < ·) (positionsOf c l i) := by
  intro l
  induction l with
  | nil => intro i; simp [positionsOf]
  | cons d ds ih =>
    intro i
    simp only [positionsOf]
    by_cases hd : d = c
    · rw [if_pos hd]
      refine List.pairwise_cons.mpr ⟨?_, ih (i + 1)⟩
      intro j hj
      have := ((positionsOf_mem c ds (i + 1) j).mp hj).1
      omega
    · rw [if_neg hd]
      exact ih (i + 1)

lemma b2jOf_subset (b : List Char) (c : Char) (j : Nat)
    (h : j ∈ b2jOf b c) : j ∈ positionsOf c b 0 := by
  simp only [b2jOf] at h
  split at h
  · simp at h
  · exact h

lemma b2jOf_char (b : List Char) (c : Char) (j : Nat) (h : j ∈ b2jOf b c) :
    j < b.length ∧ b.get? j = some c := by
  have hmem := (positionsOf_mem c b 0 j).mp (b2jOf_subset b c j h)
  rw [Nat.sub_zero] at hmem
  have hlt : j < b.length := by
    by_contra hge
    rw [List.get?_eq_none.mpr (by omega)] at hmem
    exact absurd hmem.2 (by simp)
  exact ⟨hlt, hmem.2⟩

lemma b2jOf_full (b : List Char) (c : Char) (j0 : Nat) (h : j0 ∈ b2jOf b c) :
    ∀ j, j < b.length → b.get? j = some c → j ∈ b2jOf b c := by
  intro j hlt hget
  simp only [b2jOf] at h ⊢
  split at h
  · simp at h
  · next hcond =>
    rw [if_neg hcond]
    exact (positionsOf_mem c b 0 j).mpr ⟨Nat.zero_le _, by rwa [Nat.sub_zero]⟩

lemma b2jOf_pairwise (b : List Char) (c : Char) :
    List.Pairwise (· < ·) (b2jOf b c) := by
  simp only [b2jOf]
  split
  · exact List.Pairwise.nil
  · exact positionsOf_pairwise c b 0

lemma chainLen_eq_zero (b2jf : Char → List Nat) (x : List Char) (i j : Nat)
    (h : ¬ j ∈ b2jf (x.getD i ' ')) : chainLen b2jf x i j = 0 := by
  cases i with
  | zero => simp only [chainLen]; rw [if_neg h]
  | succ m => simp only [chainLen]; rw [if_neg h]

lemma chainLen_mem (b2jf : Char → List Nat) (x : List Char) (i j : Nat)
    (h : chainLen b2jf x i j ≠ 0) : j ∈ b2jf (x.getD i ' ') := by
  by_contra hmem
  exact h (chainLen_eq_zero b2jf x i j hmem)

/-- The char at a position listed in `b2j(x[i])` equals `x[i]`. -/
lemma b2j_char_eq (b2jf : Char → List Nat) (x : List Char) (n : Nat)
    (hB1 : ∀ c j, j ∈ b2jf c → j < n ∧ x.get? j = some c)
    (i j : Nat) (h : j ∈ b2jf (x.getD i ' ')) : x.getD j ' ' = x.getD i ' ' :=
  getD_of_get? x j _ (hB1 _ j h).2

/-- Any chain value at `(i, j)` with `j ≤ i` is dominated by the
diagonal chain at `(j, j)` (self-comparison). -/
lemma chainLen_le_diag_left (b2jf : Char → List Nat) (x : List Char) (n : Nat)
    (hB1 : ∀ c j, j ∈ b2jf c → j < n ∧ x.get? j = some c) :
    ∀ (j i : Nat), j ≤ i →
      chainLen b2jf x i j ≤ chainLen b2jf x j j := by
  intro j
  induction j with
  | zero =>
    intro i _
    by_cases hm : 0 ∈ b2jf (x.getD i ' ')
    · have hchar : x.getD 0 ' ' = x.getD i ' ' := b2j_char_eq b2jf x n hB1 i 0 hm
      have h00 : chainLen b2jf x 0 0 = 1 := by
        simp only [chainLen]
        rw [hchar, if_pos hm]
      have hle : chainLen b2jf x i 0 ≤ 1 := by
        cases i with
        | zero => exact le_of_eq h00
        | succ i' =>
          simp only [chainLen]
          rw [if_pos hm]
          simp
      omega
    · rw [chainLen_eq_zero b2jf x i 0 hm]
      exact Nat.zero_le _
  | succ j' ih =>
    intro i hji
    by_cases hm : j' + 1 ∈ b2jf (x.getD i ' ')
    · obtain ⟨i', rfl⟩ : ∃ i', i = i' + 1 := ⟨i - 1, by omega⟩
      have hchar : x.getD (j' + 1) ' ' = x.getD (i' + 1) ' ' :=
        b2j_char_eq b2jf x n hB1 (i' + 1) (j' + 1) hm
      have hmj : j' + 1 ∈ b2jf (x.getD (j' + 1) ' ') := by rw [hchar]; exact hm
      have hstep : chainLen b2jf x (i' + 1) (j' + 1) =
          chainLen b2jf x i' j' + 1 := by
        simp only [chainLen]
        rw [if_pos hm]
        simp
      have hstep2 : chainLen b2jf x (j' + 1) (j' + 1) =
          chainLen b2jf x j' j' + 1 := by
        simp only [chainLen]
        rw [if_pos hmj]
        simp
      rw [hstep, hstep2]
      have := ih i' (by omega)
      omega
    · rw [chainLen_eq_zero b2jf x _ _ hm]
      exact Nat.zero_le _

/-- Any chain value at `(i, j)` with `i ≤ j` is dominated by the
diagonal chain at `(i, i)` (needs the all-or-nothing property of the
popularity filter). -/
lemma chainLen_le_diag_right (b2jf : Char → List Nat) (x : List Char) (n : Nat)
    (hB1 : ∀ c j, j ∈ b2jf c → j < n ∧ x.get? j = some c)
    (hB2 : ∀ c j0, j0 ∈ b2jf c → ∀ j, j < n → x.get? j = some c → j ∈ b2jf c)
    (hnx : n = x.length) :
    ∀ (i j : Nat), i ≤ j →
      chainLen b2jf x i j ≤ chainLen b2jf x i i := by
  intro i
  induction i with
  | zero =>
    intro j _
    by_cases hm : j ∈ b2jf (x.getD 0 ' ')
    · have hj : j < n := (hB1 _ j hm).1
      have h0 : (0 : Nat) < x.length := by omega
      have hget : x.get? 0 = some (x.getD 0 ' ') := get?_of_lt x 0 h0
      have hm0 : 0 ∈ b2jf (x.getD 0 ' ') :=
        hB2 _ j hm 0 (by omega) hget
      have h1 : chainLen b2jf x 0 j ≤ 1 := by
        simp only [chainLen]
        rw [if_pos hm]
      have h2 : chainLen b2jf x 0 0 = 1 := by
        simp only [chainLen]
        rw [if_pos hm0]
      omega
    · rw [chainLen_eq_zero b2jf x 0 j hm]
      exact Nat.zero_le _
  | succ i' ih =>
    intro j hij
    by_cases hm : j ∈ b2jf (x.getD (i' + 1) ' ')
    · have hj : j < n := (hB1 _ j hm).1
      have hi1 : i' + 1 < n := by omega
      have hget : x.get? (i' + 1) = some (x.getD (i' + 1) ' ') :=
        get?_of_lt x (i' + 1) (by omega)
      have hmd : i' + 1 ∈ b2jf (x.getD (i' + 1) ' ') :=
        hB2 _ j hm (i' + 1) hi1 hget
      have hjne : j ≠ 0 := by omega
      have hstep : chainLen b2jf x (i' + 1) j =
          chainLen b2jf x i' (j - 1) + 1 := by
        simp only [chainLen]
        rw [if_pos hm, if_neg hjne]
      have hstep2 : chainLen b2jf x (i' + 1) (i' + 1) =
          chainLen b2jf x i' i' + 1 := by
        simp only [chainLen]
        rw [if_pos hmd]
        simp
      rw [hstep, hstep2]
      have := ih (j - 1) (by omega)
      omega
    · rw [chainLen_eq_zero b2jf x _ _ hm]
      exact Nat.zero_le _

/-- One row of `find_longest_match` on a self-comparison with full
window: the dictionary becomes exactly the chain function of the row,
and the best candidate stays diagonal — any strictly improving match
is found first on the diagonal, because a cross chain `(i, j)` is
dominated by a diagonal chain processed earlier (`(j, j)` in an earlier
row for `j < i`, `(i, i)` earlier in this row for `j > i`). -/
lemma flmInner_self (x : List Char) (b2jf : Char → List Nat) (n : Nat)
    (hB1 : ∀ c j, j ∈ b2jf c → j < n ∧ x.get? j = some c)
    (hB2 : ∀ c j0, j0 ∈ b2jf c → ∀ j, j < n → x.get? j = some c → j ∈ b2jf c)
    (hnx : n = x.length)
    (i : Nat) (hin : i < n)
    (d : Nat → Nat)
    (hd : ∀ j, j ∈ b2jf (x.getD i ' ') →
      (if j = 0 then 0 else d (j - 1)) + 1 = chainLen b2jf x i j) :
    ∀ (js pre : List Nat) (newd : Nat → Nat) (p bs : Nat),
      b2jf (x.getD i ' ') = pre ++ js →
      List.Pairwise (· < ·) (pre ++ js) →
      (∀ j, newd j = if j ∈ pre then chainLen b2jf x i j else 0) →
      (∀ j ∈ pre, chainLen b2jf x i j ≤ bs) →
      (∀ i' j, i' < i → chainLen b2jf x i' j ≤ bs) →
      ∃ d' p' bs',
        flmInner 0 n i d js newd (p, p, bs) = (d', (p', p', bs')) ∧
        (∀ j, d' j = chainLen b2jf x i j) ∧
        bs ≤ bs' ∧ (∀ j, chainLen b2jf x i j ≤ bs') := by
  intro js
  induction js with
  | nil =>
    intro pre newd p bs hrow _ hnew hbs1 _
    refine ⟨newd, p, bs, rfl, ?_, le_refl bs, ?_⟩
    · intro j
      rw [hnew j]
      by_cases hj : j ∈ pre
      · rw [if_pos hj]
      · rw [if_neg hj,
          chainLen_eq_zero b2jf x i j (by rw [hrow, List.append_nil]; exact hj)]
    · intro j
      by_cases hj : j ∈ pre
      · exact hbs1 j hj
      · rw [chainLen_eq_zero b2jf x i j (by rw [hrow, List.append_nil]; exact hj)]
        exact Nat.zero_le _
  | cons j js ih =>
    intro pre newd p bs hrow hsort hnew hbs1 hbs2
    have hmemj : j ∈ b2jf (x.getD i ' ') := by
      rw [hrow]
      exact List.mem_append_right _ (List.mem_cons_self _ _)
    have hjn : j < n := (hB1 _ j hmemj).1
    have hk := hd j hmemj
    simp only [flmInner]
    rw [if_neg (Nat.not_lt_zero j), if_neg (by omega : ¬ n ≤ j)]
    set k := (if j = 0 then 0 else d (j - 1)) + 1 with hkdef
    have hrow' : b2jf (x.getD i ' ') = (pre ++ [j]) ++ js := by
      rw [hrow, List.append_assoc, List.singleton_append]
    have hsort' : List.Pairwise (· < ·) ((pre ++ [j]) ++ js) := by
      rw [List.append_assoc, List.singleton_append]
      exact hsort
    have hnew' : ∀ j', (fun j' => if j' = j then k else newd j') j' =
        if j' ∈ pre ++ [j] then chainLen b2jf x i j' else 0 := by
      intro j'
      by_cases hj' : j' = j
      · subst hj'
        simp only [if_pos rfl]
        rw [if_pos (List.mem_append_right _ (List.mem_singleton.mpr rfl))]
        exact hk
      · simp only [if_neg hj']
        rw [hnew j']
        by_cases hmem : j' ∈ pre
        · rw [if_pos hmem, if_pos (List.mem_append_left _ hmem)]
        · rw [if_neg hmem, if_neg ?_]
          intro hc
          rcases List.mem_append.mp hc with h | h
          · exact hmem h
          · exact hj' (List.mem_singleton.mp h)
    dsimp only
    by_cases hup : bs < k
    · have hji : j = i := by
        by_contra hne
        rcases Nat.lt_or_ge j i with hlt | hge
        · have h1 : chainLen b2jf x i j ≤ chainLen b2jf x j j :=
            chainLen_le_diag_left b2jf x n hB1 j i (le_of_lt hlt)
          have h2 : chainLen b2jf x j j ≤ bs := hbs2 j j hlt
          omega
        · have hij : i < j := by omega
          have h1 : chainLen b2jf x i j ≤ chainLen b2jf x i i :=
            chainLen_le_diag_right b2jf x n hB1 hB2 hnx i j (le_of_lt hij)
          have hmi : i ∈ b2jf (x.getD i ' ') :=
            hB2 _ j hmemj i hin (get?_of_lt x i (by omega))
          have hipre : i ∈ pre := by
            rw [hrow] at hmi
            rcases List.mem_append.mp hmi with h | h
            · exact h
            · rcases List.mem_cons.mp h with heq | hjs
              · omega
              · have hpair := (List.pairwise_append.mp hsort).2.1
                have := (List.pairwise_cons.mp hpair).1 i hjs
                omega
          have h2 : chainLen b2jf x i i ≤ bs := hbs1 i hipre
          omega
      subst hji
      rw [if_pos hup]
      have hres := ih (pre ++ [j]) (fun j' => if j' = j then k else newd j')
        (j + 1 - k) k hrow' hsort' hnew'
        (fun j' hj' => by
          rcases List.mem_append.mp hj' with h | h
          · exact le_trans (hbs1 j' h) (le_of_lt hup)
          · rcases List.mem_singleton.mp h with rfl
            rw [← hk])
        (fun i' j' hi' => le_trans (hbs2 i' j' hi') (le_of_lt hup))
      obtain ⟨d', p', bs', heq, hd', hle, hball⟩ := hres
      exact ⟨d', p', bs', heq, hd', by omega, hball⟩
    · rw [if_neg hup]
      apply ih (pre ++ [j]) _ p bs hrow' hsort' hnew' ?_ hbs2
      intro j' hj'
      rcases List.mem_append.mp hj' with h | h
      · exact hbs1 j' h
      · rcases List.mem_singleton.mp h with rfl
        rw [← hk]
        omega

/-- All rows of `find_longest_match` on a self-comparison with full
window: the best stays diagonal and ends up dominating every chain of
the processed rows. -/
lemma flmRows_self (x : List Char) (b2jf : Char → List Nat) (n : Nat)
    (hB1 : ∀ c j, j ∈ b2jf c → j < n ∧ x.get? j = some c)
    (hB2 : ∀ c j0, j0 ∈ b2jf c → ∀ j, j < n → x.get? j = some c → j ∈ b2jf c)
    (hB3 : ∀ c, List.Pairwise (· < ·) (b2jf c))
    (hnx : n = x.length) :
    ∀ (m i : Nat) (d : Nat → Nat) (p bs : Nat),
      i + m ≤ n →
      (∀ j, j ∈ b2jf (x.getD i ' ') →
        (if j = 0 then 0 else d (j - 1)) + 1 = chainLen b2jf x i j) →
      (∀ i' j, i' < i → chainLen b2jf x i' j ≤ bs) →
      ∃ p' bs', flmRows x b2jf 0 n (List.range' i m) d (p, p, bs) = (p', p', bs') ∧
        bs ≤ bs' ∧ ∀ i' j, i' < i + m → chainLen b2jf x i' j ≤ bs' := by
  intro m
  induction m with
  | zero =>
    intro i d p bs _ _ hbs2
    exact ⟨p, bs, rfl, le_refl bs, fun i' j h => hbs2 i' j (by omega)⟩
  | succ m ih =>
    intro i d p bs hle hd hbs2
    have hin : i < n := by omega
    have hr : List.range' i (m + 1) = i :: List.range' (i + 1) m := rfl
    rw [hr]
    simp only [flmRows]
    have hself := flmInner_self x b2jf n hB1 hB2 hnx i hin d hd
      (b2jf (x.getD i ' ')) [] (fun _ => 0) p bs
      (by rw [List.nil_append])
      (by rw [List.nil_append]; exact hB3 _)
      (by intro j; simp)
      (by intro j hj; simp at hj)
      hbs2
    obtain ⟨d', p1, bs1, heq, hd', hle1, hball⟩ := hself
    rw [heq]
    dsimp only
    have hrec := ih (i + 1) d' p1 bs1 (by omega)
      (by
        intro j hj
        simp only [chainLen]
        rw [if_pos hj, hd'])
      (by
        intro i' j h
        rcases Nat.lt_or_ge i' i with h' | h'
        · exact le_trans (hbs2 i' j h') hle1
        · have hii : i' = i := by omega
          subst hii
          exact hball j)
    obtain ⟨p2, bs2, heq2, hle2, hball2⟩ := hrec
    refine ⟨p2, bs2, heq2, le_trans hle1 hle2, ?_⟩
    intro i' j h
    exact hball2 i' j (by omega)

/-- Backward extension on a self-comparison from a diagonal best with
full window runs all the way down to position 0 (the fuel `besti` is
exactly the number of steps). -/
lemma extBack_self (x : List Char) : ∀ (p bs : Nat),
    extBack x x 0 0 p p p bs = (0, 0, bs + p) := by
  intro p
  induction p with
  | zero => intro bs; rfl
  | succ p ih =>
    intro bs
    simp only [extBack]
    rw [if_pos ⟨Nat.succ_pos p, Nat.succ_pos p, trivial⟩, Nat.add_sub_cancel, ih (bs + 1)]
    have h1 : bs + 1 + p = bs + (p + 1) := by omega
    rw [h1]

/-- Forward extension on a self-comparison from the diagonal origin
reaches the full length when the fuel suffices. -/
lemma extFwd_self (x : List Char) (n : Nat) :
    ∀ (fuel bs : Nat), n ≤ bs + fuel → bs ≤ n →
      extFwd x x n n 0 0 fuel bs = n := by
  intro fuel
  induction fuel with
  | zero =>
    intro bs h1 h2
    simp only [extFwd]
    omega
  | succ fuel ih =>
    intro bs h1 h2
    simp only [extFwd]
    by_cases hlt : bs < n
    · rw [if_pos ⟨by omega, by omega, trivial⟩]
      exact ih (bs + 1) (by omega) (by omega)
    · rw [if_neg (fun h => absurd h.1 (by omega))]
      omega

/-- `find_longest_match` on the full self-window returns the whole
sequence: the inner loops keep the best diagonal, and the extension
loops stretch it to `[0, n)`. -/
lemma findLongestMatch_self (x : List Char) :
    findLongestMatch x x (b2jOf x) 0 x.length 0 x.length = (0, 0, x.length) := by
  have hB1 : ∀ c j, j ∈ b2jOf x c → j < x.length ∧ x.get? j = some c :=
    fun c j h => b2jOf_char x c j h
  have hrows := flmRows_self x (b2jOf x) x.length hB1
    (fun c j0 h => b2jOf_full x c j0 h) (fun c => b2jOf_pairwise x c) rfl
    x.length 0 (fun _ => 0) 0 0 (by omega)
    (by
      intro j hj
      simp only [chainLen]
      rw [if_pos hj]
      split <;> rfl)
    (fun i' j h => absurd h (Nat.not_lt_zero i'))
  obtain ⟨p', bs', heq, _, _⟩ := hrows
  have hbest := flmRows_bound x (b2jOf x) 0 x.length 0 x.length x.length 0
    (fun _ => 0) (0, 0, 0) (le_refl 0) (by omega)
    (fun j => ⟨Nat.zero_le _, Nat.zero_le _⟩)
    ⟨le_refl 0, by show 0 + 0 ≤ x.length; omega,
      le_refl 0, by show 0 + 0 ≤ x.length; omega⟩
  rw [heq] at hbest
  have hsum : p' + bs' ≤ x.length := hbest.2.1
  simp only [findLongestMatch]
  rw [Nat.sub_zero, heq]
  dsimp only
  rw [extBack_self x p' bs']
  dsimp only
  rw [extFwd_self x x.length x.length (bs' + p') (by omega) (by omega)]

lemma extBack_stuck (a b : List Char) (alo blo : Nat) :
    ∀ (fuel bj bk : Nat), extBack a b alo blo fuel alo bj bk = (alo, bj, bk) := by
  intro fuel bj bk
  cases fuel with
  | zero => rfl
  | succ fuel =>
    simp only [extBack]
    rw [if_neg (fun h => absurd h.1 (lt_irrefl alo))]

lemma extFwd_stuck (a b : List Char) (ahi bhi bj : Nat) :
    ∀ (fuel : Nat), extFwd a b ahi bhi ahi bj fuel 0 = 0 := by
  intro fuel
  cases fuel with
  | zero => rfl
  | succ fuel =>
    simp only [extFwd]
    rw [if_neg (fun h => absurd h.1 (by omega))]

/-- `get_matching_blocks` on an empty window contributes nothing. -/
lemma matchingTotalF_empty (a b : List Char) (b2jf : Char → List Nat) :
    ∀ (fuel alo blo : Nat), matchingTotalF a b b2jf fuel alo alo blo blo = 0 := by
  intro fuel alo blo
  cases fuel with
  | zero => rfl
  | succ fuel =>
    have hm : findLongestMatch a b b2jf alo alo blo blo = (alo, blo, 0) := by
      simp only [findLongestMatch]
      rw [Nat.sub_self]
      have hr : List.range' alo 0 = [] := rfl
      rw [hr]
      simp only [flmRows]
      rw [extBack_stuck]
      dsimp only
      rw [extFwd_stuck]
    simp only [matchingTotalF]
    rw [hm]
    dsimp only
    rw [if_pos rfl]

/-- The total match size of a sequence against itself is its length. -/
lemma matchingTotalF_self (x : List Char) (fuel : Nat) (hf : 0 < fuel) :
    matchingTotalF x x (b2jOf x) fuel 0 x.length 0 x.length = x.length := by
  cases fuel with
  | zero => omega
  | succ fuel =>
    simp only [matchingTotalF]
    rw [findLongestMatch_self x]
    dsimp only
    by_cases hn : x.length = 0
    · rw [if_pos hn]
      exact hn.symm
    · rw [if_neg hn, matchingTotalF_empty, Nat.zero_add, matchingTotalF_empty]
      omega

/-- `SequenceMatcher.ratio()` of a sequence against itself is 1,
including the empty sequence (special-cased to 1.0 in `ratio`). -/
lemma seqRatio_self (x : List Char) : seqRatio x x = 1 := by
  simp only [seqRatio]
  by_cases h : x.length + x.length = 0
  · rw [if_pos h]
  · rw [if_neg h]
    rw [matchingTotalF_self x (x.length + x.length + 1) (by omega)]
    have hx : ((x.length : ℚ)) ≠ 0 := Nat.cast_ne_zero.mpr (by omega)
    push_cast
    field_simp
    ring

/-! ## Claims -/

/-- C3 evidence: the `blank_is_zero` flag of `normalize_amounts` has no
effect at all — the `fillna(0 if blank_is_zero else 0)` fills blanks
with 0 under both settings — and in particular with the flag disabled a
blank cell and an explicit `0.00` cell both normalize to `0.00`, so a
blank on one side and `0.00` on the other can never produce an amount
mismatch, contrary to the specified disabled behaviour. -/
theorem c3_blank_is_zero_flag_is_dead :
    (∀ (t : ℤ) (bz : Bool) (c : Cell),
      normalizeAmountCell t bz c = normalizeAmountCell t true c) ∧
    (∀ t : ℤ, normalizeAmountCell t false (.txt "") = 0 ∧
      normalizeAmountCell t false Cell.na = 0 ∧
      normalizeAmountCell t false (.txt "") = normalizeAmountCell t false (.num 0)) := by
  have hval : ∀ (bz : Bool) (c : Cell),
      (toNumericCoerce (blankFix bz c)).getD 0 = (toNumericCoerce c).getD 0 := by
    intro bz c
    cases bz
    · rfl
    · cases c with
      | num q => rfl
      | na => rfl
      | txt s =>
        by_cases h : s = "" ∨ s = "-" ∨ s = "--" <;>
          simp [blankFix, toNumericCoerce, h]
  have key : ∀ (t : ℤ) (bz : Bool) (c : Cell),
      normalizeAmountCell t bz c = normalizeAmountCell t true c := by
    intro t bz c
    simp only [normalizeAmountCell]
    rw [hval bz c, hval true c]
  refine ⟨key, fun t => ?_⟩
  have hbr : bucketRound t 0 = 0 := by
    have hstep : (0 : ℤ) < max 1 t := lt_of_lt_of_le Int.one_pos (le_max_left 1 t)
    simp [bucketRound, pyRound_zero, hstep]
  have hz : ∀ (bz : Bool) (c : Cell), (toNumericCoerce c).getD 0 = 0 →
      normalizeAmountCell t bz c = 0 := by
    intro bz c hc
    simp only [normalizeAmountCell]
    rw [hval bz c, hc, hbr]
  refine ⟨hz false (.txt "") rfl, hz false Cell.na rfl, ?_⟩
  rw [hz false (.txt "") rfl, hz false (.num 0) rfl]

/-- C5 counterexample: the engine-level coercion (`utils.coerce_types`)
leaves a 3-digit identity at length 3 — it does not left-zero-pad to
width 9 as the claim asserts of every normalization. -/
theorem c5_counterexample :
    (coerceRow { ssn := "123", first := "", last := "", plan := "",
                 ee := Cell.na, er := Cell.na }).ssn = "123" ∧
    ¬ ("123".length = 9) := by
  constructor
  · rfl
  · decide

/-- C5 amended: the app-level `standardize_df` does coerce the identity
to a digits-only string left-zero-padded to width 9 (length
`max 9 (number of digits)`, so exactly 9 whenever at most 9 digits
survive), while the engine-level `coerce_types` strips the identity to
its digits without padding. -/
theorem c5_identity_normalization :
    (∀ s : String, (standardizeSSN s).data.all Char.isDigit = true ∧
      (standardizeSSN s).length = max 9 (digitsOnly (pyStrip s)).length) ∧
    (∀ r : RawRow, (coerceRow r).ssn.data.all Char.isDigit = true ∧
      (coerceRow r).ssn.length = (digitsOnly r.ssn).length) := by
  have hdig : ∀ s : String, (digitsOnly s).data.all Char.isDigit = true := by
    intro s
    simp only [digitsOnly, List.all_eq_true]
    intro c hc
    exact List.of_mem_filter hc
  have hz : ∀ s : String, s.data.all Char.isDigit = true →
      (pyZfill 9 s).data.all Char.isDigit = true ∧
      (pyZfill 9 s).length = max 9 s.length := by
    intro s hs
    unfold pyZfill
    match hsd : s.data with
    | [] =>
      constructor
      · simp only [List.all_eq_true]
        intro c hc
        have : c = '0' := List.eq_of_mem_replicate hc
        subst this; decide
      · simp [String.length, hsd]
    | c :: rest =>
      have hcd : c.isDigit = true := by
        have := hs
        rw [hsd] at this
        simp only [List.all_eq_true] at this
        exact this c (by simp)
      have hnotsign : ¬ (c = '+' ∨ c = '-') := by
        rintro (rfl | rfl) <;> simp at hcd
      simp only [hsd, if_neg hnotsign]
      constructor
      · simp only [List.all_eq_true]
        intro d hd
        rcases List.mem_append.mp hd with h | h
        · have : d = '0' := List.eq_of_mem_replicate h
          subst this; decide
        · have := hs
          rw [hsd] at this
          simp only [List.all_eq_true] at this
          exact this d h
      · simp only [String.length, hsd, List.length_append, List.length_replicate,
          List.length_cons]
        omega
  constructor
  · intro s
    exact hz (digitsOnly (pyStrip s)) (hdig _)
  · intro r
    exact ⟨hdig r.ssn, rfl⟩

/-- C6: after header standardization, `_prepare`'s validation fails
precisely when some required canonical column is absent; the error
carries the offending source's name and exactly the missing canonical
column names (and nothing is produced); when all six are present the
preparation succeeds. -/
theorem c6_missing_columns_fatal :
    ∀ (source : String) (cols : List String),
      ((∃ e, prepareCols source cols = .error e) ↔
        ∃ c ∈ REQUIRED_COLS, ¬ c ∈ standardizeColumns cols) ∧
      (∀ e, prepareCols source cols = .error e →
        e.1 = source ∧ e.2 ≠ [] ∧
        (∀ c, c ∈ e.2 ↔ (c ∈ REQUIRED_COLS ∧ ¬ c ∈ standardizeColumns cols))) ∧
      (∀ t, prepareCols source cols = .ok t →
        t = standardizeColumns cols ∧
        ∀ c ∈ REQUIRED_COLS, c ∈ standardizeColumns cols) := by
  intro source cols
  have hmem : ∀ c, c ∈ validateRequiredColumns (standardizeColumns cols) ↔
      (c ∈ REQUIRED_COLS ∧ ¬ c ∈ standardizeColumns cols) := by
    intro c
    simp only [validateRequiredColumns, List.mem_filter]
    simp
  by_cases hnil : (validateRequiredColumns (standardizeColumns cols)).isEmpty
  · have hmnil : validateRequiredColumns (standardizeColumns cols) = [] := by
      simpa [List.isEmpty_iff] using hnil
    have hok : prepareCols source cols = .ok (standardizeColumns cols) := by
      simp only [prepareCols]
      rw [if_pos hnil]
    refine ⟨?_, ?_, ?_⟩
    · constructor
      · rintro ⟨e, he⟩
        rw [hok] at he
        exact absurd he (by simp)
      · rintro ⟨c, hc, hnc⟩
        have hcm : c ∈ validateRequiredColumns (standardizeColumns cols) :=
          (hmem c).mpr ⟨hc, hnc⟩
        rw [hmnil] at hcm
        simp at hcm
    · intro e he
      rw [hok] at he
      exact absurd he (by simp)
    · intro t ht
      rw [hok] at ht
      have heq : standardizeColumns cols = t := by
        injection ht
      subst heq
      refine ⟨rfl, fun c hc => ?_⟩
      by_contra hnc
      have hcm : c ∈ validateRequiredColumns (standardizeColumns cols) :=
        (hmem c).mpr ⟨hc, hnc⟩
      rw [hmnil] at hcm
      simp at hcm
  · have herr : prepareCols source cols =
        .error (source, validateRequiredColumns (standardizeColumns cols)) := by
      simp only [prepareCols]
      rw [if_neg hnil]
    have hmne : validateRequiredColumns (standardizeColumns cols) ≠ [] := by
      intro h
      rw [h] at hnil
      simp at hnil
    refine ⟨?_, ?_, ?_⟩
    · constructor
      · intro _
        rcases List.exists_mem_of_ne_nil _ hmne with ⟨c, hc⟩
        exact ⟨c, ((hmem c).mp hc).1, ((hmem c).mp hc).2⟩
      · intro _
        exact ⟨(source, validateRequiredColumns (standardizeColumns cols)), herr⟩
    · intro e he
      rw [herr] at he
      have he' : (source, validateRequiredColumns (standardizeColumns cols)) = e := by
        injection he
      subst he'
      exact ⟨rfl, hmne, hmem⟩
    · intro t ht
      rw [herr] at ht
      exact absurd ht (by simp)

/-- C6 witness: a table offering only `ssn` and `first name` headers
fails for source `Carrier`, and the error names `Carrier`. -/
theorem c6_witness :
    ∃ e, prepareCols "Carrier" ["ssn", "first name"] = .error e ∧
      e.1 = "Carrier" ∧ "Plan Name" ∈ e.2 := by
  have h := c6_missing_columns_fatal "Carrier" ["ssn", "first name"]
  obtain ⟨e, he⟩ := h.1.mpr ⟨"Plan Name", by decide, by decide⟩
  obtain ⟨h1, _, h3⟩ := h.2.1 e he
  exact ⟨e, he, h1, (h3 "Plan Name").mpr ⟨by decide, by decide⟩⟩

/-- C8: alias resolution is reflexive on the canonical keys of any
alias table satisfying the documented key invariant (keys trimmed and
lowercased, as `normalize_alias_dict` produces): the exact canonical
match returns before alias lookup and fuzzy matching are consulted,
for every scorer and every threshold. -/
theorem c8_resolve_reflexive_on_canonicals :
    ∀ (scorer : String → String → ℚ) (aliases : List (String × List String))
      (threshold : ℚ) (c : String),
      (∀ k ∈ aliases.map Prod.fst, pyLower (pyStrip k) = k) →
      c ∈ aliases.map Prod.fst →
      normalizeWithAliases scorer c aliases threshold = c := by
  intro scorer aliases threshold c hkeys hc
  by_cases hce : c = ""
  · subst hce
    simp [normalizeWithAliases, pyTruthy]
  · have hnorm : pyLower (pyStrip c) = c := hkeys c hc
    have hsome : (aliases.lookup c).isSome :=
      lookup_isSome_of_mem_keys aliases c hc
    have ht : pyTruthy c = true := by simpa [pyTruthy] using hce
    simp only [normalizeWithAliases]
    rw [hnorm]
    simp [ht, hsome]

/-- C8 witness: the built-in default alias table has normalized keys,
and resolving the canonical `dental` returns `dental` for an arbitrary
scorer at the default threshold. -/
theorem c8_witness :
    normalizeWithAliases (fun _ _ => 0) "dental" DEFAULT_ALIASES (9 / 10) = "dental" :=
  c8_resolve_reflexive_on_canonicals (fun _ _ => 0) DEFAULT_ALIASES (9 / 10) "dental"
    (by decide) (by decide)

/-- C7: `_summarize` always carries a `Total` entry; on the empty
collection it is exactly `[("Total", 0)]`; and on any collection whose
error types do not themselves read `"Total"` (true of all generated
error types), the summary has one entry per distinct error type (keys
are nodup), each non-Total entry counts its type's multiplicity, and
the Total entry equals the sum of the non-Total counts. -/
theorem c7_summary_total_invariant :
    (summarize [] = [("Total", 0)]) ∧
    (∀ es : List String, ∃ n, ("Total", n) ∈ summarize es) ∧
    (∀ es : List String, ¬ "Total" ∈ es →
      ((summarize es).map Prod.fst).Nodup ∧
      (∃ n, ("Total", n) ∈ summarize es ∧
        n = ((summarize es).filter (fun p => p.1 ≠ "Total")).foldl
              (fun m p => m + p.2) 0) ∧
      (∀ t, t ≠ "Total" → ((∃ m, (t, m) ∈ summarize es) ↔ t ∈ es)) ∧
      (∀ t m, (t, m) ∈ summarize es → t ≠ "Total" → m = es.count t)) := by
  have hsum_empty : summarize [] = [("Total", 0)] := rfl
  refine ⟨hsum_empty, ?_, ?_⟩
  · intro es
    by_cases h : es = []
    · subst h; exact ⟨0, by rw [hsum_empty]; exact List.mem_singleton.mpr rfl⟩
    · have hne : es.isEmpty = false := by simpa [List.isEmpty_iff] using h
      refine ⟨(valueCounts es).foldl (fun n p => n + p.2) 0, ?_⟩
      simp only [summarize, hne, Bool.false_eq_true, if_false]
      exact List.mem_append_right _ (List.mem_singleton.mpr rfl)
  · intro es hTot
    by_cases h : es = []
    · subst h
      refine ⟨by rw [hsum_empty]; simp, ⟨0, by rw [hsum_empty]; simp, by rw [hsum_empty]; rfl⟩, ?_, ?_⟩
      · intro t ht
        rw [hsum_empty]
        simp [ht]
      · intro t m hm ht
        rw [hsum_empty] at hm
        simp only [List.mem_singleton, Prod.mk.injEq] at hm
        exact absurd hm.1 ht
    · have hne : es.isEmpty = false := by simpa [List.isEmpty_iff] using h
      have hsum : summarize es =
          valueCounts es ++ [("Total", (valueCounts es).foldl (fun n p => n + p.2) 0)] := by
        simp only [summarize, hne, Bool.false_eq_true, if_false]
      have hkey_mem : ∀ p ∈ valueCounts es, p.1 ∈ es := by
        intro p hp
        have := (mem_valueCounts es p.1 p.2).mp (by simpa using hp)
        exact this.1
      have hkeyTot : ∀ p ∈ valueCounts es, p.1 ≠ "Total" := by
        intro p hp hteq
        exact hTot (hteq ▸ hkey_mem p hp)
      refine ⟨?_, ?_, ?_, ?_⟩
      · rw [hsum]
        simp only [List.map_append, List.map_cons, List.map_nil]
        rw [List.nodup_append]
        refine ⟨?_, List.nodup_singleton _, ?_⟩
        · exact (valueCounts_keys_perm es).nodup_iff.mpr (firstDedup_nodup es)
        · intro a ha hb
          simp only [List.mem_singleton] at hb
          subst hb
          rcases List.mem_map.mp ha with ⟨p, hp, hfst⟩
          exact hkeyTot p hp hfst
      · refine ⟨(valueCounts es).foldl (fun n p => n + p.2) 0, ?_, ?_⟩
        · rw [hsum]
          exact List.mem_append_right _ (List.mem_singleton.mpr rfl)
        · rw [hsum, List.filter_append]
          have h1 : (valueCounts es).filter (fun p => p.1 ≠ "Total") = valueCounts es :=
            List.filter_eq_self.mpr (fun p hp => by
              simpa using hkeyTot p hp)
          have h2 : ([("Total", (valueCounts es).foldl (fun n p => n + p.2) 0)].filter
              (fun p => p.1 ≠ "Total")) = [] := by simp
          rw [h1, h2, List.append_nil]
      · intro t ht
        constructor
        · rintro ⟨m, hm⟩
          rw [hsum] at hm
          rcases List.mem_append.mp hm with hm | hm
          · exact ((mem_valueCounts es t m).mp hm).1
          · simp only [List.mem_singleton, Prod.mk.injEq] at hm
            exact absurd hm.1 ht
        · intro hmem
          exact ⟨es.count t, by
            rw [hsum]
            exact List.mem_append_left _ ((mem_valueCounts es t _).mpr ⟨hmem, rfl⟩)⟩
      · intro t m hm ht
        rw [hsum] at hm
        rcases List.mem_append.mp hm with hm | hm
        · exact ((mem_valueCounts es t m).mp hm).2
        · simp only [List.mem_singleton, Prod.mk.injEq] at hm
          exact absurd hm.1 ht

/-- C7 witness: a concrete discrepancy collection without a literal
`"Total"` error type has nodup summary keys. -/
theorem c7_witness :
    ((summarize ["Employee Amount Mismatch", "Missing in Carrier",
        "Employee Amount Mismatch"]).map Prod.fst).Nodup :=
  (c7_summary_total_invariant.2.2 _ (by decide)).1

/-- C10: for every tolerance (including 0 and negative values),
`normalize_amounts` stores each amount as an integer multiple of
`step = max(1, tolerance_cents)` cents, the multiple nearest (within
`step/2` cents) to the cent-rounded raw amount; concretely at the
default `tolerance_cents = 2`: 0.01 and 0.02 differ by less than the
tolerance yet normalize to the distinct values 0.00 and 0.02, while
0.026 and 0.054 differ by 2.8 cents — beyond the tolerance, within
tolerance plus half a step — yet both normalize to 0.04. -/
theorem c10_amount_bucketing :
    (∀ (t : ℤ) (x : ℚ), ∃ k : ℤ,
      normalizeAmountCell t true (.num x) = ((k * max 1 t : ℤ) : ℚ) / 100 ∧
      |((k * max 1 t : ℤ) : ℚ) - (pyRound (x * 100) : ℚ)| ≤ ((max 1 t : ℤ) : ℚ) / 2) ∧
    (normalizeAmountCell 2 true (.num (1 / 100)) = 0 ∧
     normalizeAmountCell 2 true (.num (2 / 100)) = 2 / 100 ∧
     |(1 : ℚ) / 100 - 2 / 100| < 2 / 100 ∧
     normalizeAmountCell 2 true (.num (26 / 1000)) = 4 / 100 ∧
     normalizeAmountCell 2 true (.num (54 / 1000)) = 4 / 100 ∧
     (2 : ℚ) / 100 < |(26 : ℚ) / 1000 - 54 / 1000|) := by
  constructor
  · intro t x
    have hstep : (0 : ℤ) < max 1 t := lt_of_lt_of_le Int.one_pos (le_max_left 1 t)
    have hstepQ : (0 : ℚ) < ((max 1 t : ℤ) : ℚ) := by exact_mod_cast hstep
    have hstepne : ((max 1 t : ℤ) : ℚ) ≠ 0 := ne_of_gt hstepQ
    set m : ℤ := pyRound (x * 100) with hm
    set k : ℤ := pyRound ((m : ℚ) / ((max 1 t : ℤ) : ℚ)) with hk
    refine ⟨k, ?_, ?_⟩
    · have harg : ((pyRound (x * 100) : ℚ) / 100 * 100 / ((max 1 t : ℤ) : ℚ)) =
          ((m : ℚ) / ((max 1 t : ℤ) : ℚ)) := by
        rw [← hm, div_mul_cancel₀]
        norm_num
      have hv2 : ((k : ℚ) * ((max 1 t : ℤ) : ℚ) / 100 * 100) = ((k * max 1 t : ℤ) : ℚ) := by
        rw [div_mul_cancel₀]
        · push_cast; ring
        · norm_num
      show bucketRound t ((toNumericCoerce (blankFix true (.num x))).getD 0) = _
      have hbf : (toNumericCoerce (blankFix true (.num x))).getD 0 = x := rfl
      rw [hbf]
      simp only [bucketRound, if_pos hstep]
      rw [harg, ← hk, hv2, pyRound_intCast]
    · have hb := pyRound_abs_sub_le ((m : ℚ) / ((max 1 t : ℤ) : ℚ))
      rw [← hk] at hb
      have heq : ((k * max 1 t : ℤ) : ℚ) - (m : ℚ) =
          ((k : ℚ) - (m : ℚ) / ((max 1 t : ℤ) : ℚ)) * ((max 1 t : ℤ) : ℚ) := by
        field_simp
      rw [heq, abs_mul, abs_of_pos hstepQ]
      calc |(k : ℚ) - (m : ℚ) / ((max 1 t : ℤ) : ℚ)| * ((max 1 t : ℤ) : ℚ)
          ≤ (1 / 2) * ((max 1 t : ℤ) : ℚ) := by
            exact mul_le_mul_of_nonneg_right hb (le_of_lt hstepQ)
        _ = ((max 1 t : ℤ) : ℚ) / 2 := by ring
  · refine ⟨?_, ?_, ?_, ?_, ?_, ?_⟩ <;>
      exact of_decide_eq_true (by with_unfolding_all rfl)

/-- C4 counterexample: the totals-engine three-source comparison
performs no de-duplication: for a key present in Payroll and Carrier
but absent from BenAdmin, the Payroll×BenAdmin and Carrier×BenAdmin
pairs each contribute a `Missing in BenAdmin` row with the identical
`(error type, identity, plan)` triple, and the concatenated output
keeps both. -/
theorem c4_counterexample :
    ((reconcileTotalsThree [⟨"111111111", "J", "K", "dental", 50, 0⟩]
        [⟨"111111111", "J", "K", "dental", 50, 0⟩] [] 2).1.filter
      (fun e => e.etype = "Missing in BenAdmin" ∧ e.ssn = "111111111" ∧
        e.plan = "dental")).length = 2 :=
  of_decide_eq_true (by with_unfolding_all rfl)

/-- C4 amended: the row-level three-source comparison
(`reconcile_three`) does de-duplicate: for every triple of input
tables, every threshold and every `(error type, identity, plan)`
triple, its output retains exactly the first row of the concatenated
pairwise outputs bearing that triple (so each triple appears at most
once, and exactly once when some pairwise comparison produced it);
the totals engine (`reconcile_totals_three`) concatenates without
de-duplicating. -/
theorem c4_three_way_dedup :
    ∀ (p c b : List RawRow) (thr : ℚ) (t : String × String × String),
      (reconcileThree p c b thr).filter (fun e => tripleOf e = t) =
        ((reconcileTwoRows p c "Payroll" "Carrier" thr ++
          reconcileTwoRows p b "Payroll" "BenAdmin" thr ++
          reconcileTwoRows c b "Carrier" "BenAdmin" thr).filter
            (fun e => tripleOf e = t)).take 1 := by
  intro p c b thr t
  have hinv : ∀ e ∈ (reconcileTwoRows p c "Payroll" "Carrier" thr ++
      reconcileTwoRows p b "Payroll" "BenAdmin" thr ++
      reconcileTwoRows c b "Carrier" "BenAdmin" thr),
      noPipe e.etype ∧ noPipe e.ssn := by
    intro e he
    rcases List.mem_append.mp he with he | he
    · rcases List.mem_append.mp he with he | he
      · exact reconcileTwoRows_inv p c "Payroll" "Carrier" thr
          (by decide) (by decide) e he
      · exact reconcileTwoRows_inv p b "Payroll" "BenAdmin" thr
          (by decide) (by decide) e he
    · exact reconcileTwoRows_inv c b "Carrier" "BenAdmin" thr
        (by decide) (by decide) e he
  have hinj : ∀ r1 ∈ (reconcileTwoRows p c "Payroll" "Carrier" thr ++
      reconcileTwoRows p b "Payroll" "BenAdmin" thr ++
      reconcileTwoRows c b "Carrier" "BenAdmin" thr),
      ∀ r2 ∈ (reconcileTwoRows p c "Payroll" "Carrier" thr ++
        reconcileTwoRows p b "Payroll" "BenAdmin" thr ++
        reconcileTwoRows c b "Carrier" "BenAdmin" thr),
      tripleKey r1 = tripleKey r2 → tripleOf r1 = tripleOf r2 := by
    intro r1 h1 r2 h2 hk
    exact tripleKey_inj r1 r2 (hinv r1 h1).1 (hinv r1 h1).2
      (hinv r2 h2).1 (hinv r2 h2).2 hk
  simp only [reconcileThree]
  by_cases hempty : (reconcileTwoRows p c "Payroll" "Carrier" thr ++
      reconcileTwoRows p b "Payroll" "BenAdmin" thr ++
      reconcileTwoRows c b "Carrier" "BenAdmin" thr).isEmpty
  · rw [if_pos hempty]
    have hnil : (reconcileTwoRows p c "Payroll" "Carrier" thr ++
        reconcileTwoRows p b "Payroll" "BenAdmin" thr ++
        reconcileTwoRows c b "Carrier" "BenAdmin" thr) = [] := by
      simpa [List.isEmpty_iff] using hempty
    rw [hnil]
    simp
  · rw [if_neg hempty]
    exact dropDup_filter_triple t _ [] hinj (by simp)

/-- C2: the frequency-aware totals comparator accepts any pair where
one side equals the other scaled by a configured frequency factor
within tolerance plus the 10-cent slack (so it emits no amount
mismatch for such keys); in particular 100.00 vs 1200.00 passes for
every tolerance and produces no discrepancy in the totals engine at
the default 2-cent tolerance, while without the frequency logic the
same pair fails the plain tolerance check and the row-level engine
flags it as an Employee Amount Mismatch. -/
theorem c2_frequency_aware_equivalence :
    (∀ (a b : ℚ) (cents extra : ℤ) (f : ℤ), f ∈ FREQUENCY_FACTORS →
      (|a - b * (f : ℚ)| ≤ ((max 0 cents : ℤ) : ℚ) / 100 + ((max 0 extra : ℤ) : ℚ) / 100 ∨
       |b - a * (f : ℚ)| ≤ ((max 0 cents : ℤ) : ℚ) / 100 + ((max 0 extra : ℤ) : ℚ) / 100) →
      (freqOk (some a) (some b) cents extra).1 = true) ∧
    (∀ cents : ℤ, (freqOk (some 100) (some 1200) cents 10).1 = true) ∧
    ((reconcileTotalsTwo [⟨"123456789", "A", "B", "dental", 100, 0⟩]
        [⟨"123456789", "A", "B", "dental", 1200, 0⟩] "Payroll" "BenAdmin" 2).1 = [] ∧
     (reconcileTotalsTwo [⟨"123456789", "A", "B", "dental", 100, 0⟩]
        [⟨"123456789", "A", "B", "dental", 1200, 0⟩] "Payroll" "BenAdmin" 2).2 = 1) ∧
    (tolOk (some 100) (some 1200) 2 = false ∧
     (reconcileTwoRows [⟨"123456789", "A", "B", "dental", .num 100, .num 0⟩]
        [⟨"123456789", "A", "B", "dental", .num 1200, .num 0⟩] "Payroll" "BenAdmin"
        (9 / 10)).map (fun e => e.etype) = ["Employee Amount Mismatch"]) := by
  have hfreq : ∀ (a b : ℚ) (cents extra : ℤ) (f : ℤ), f ∈ FREQUENCY_FACTORS →
      (|a - b * (f : ℚ)| ≤ ((max 0 cents : ℤ) : ℚ) / 100 + ((max 0 extra : ℤ) : ℚ) / 100 ∨
       |b - a * (f : ℚ)| ≤ ((max 0 cents : ℤ) : ℚ) / 100 + ((max 0 extra : ℤ) : ℚ) / 100) →
      (freqOk (some a) (some b) cents extra).1 = true := by
    intro a b cents extra f hf hcond
    by_cases ht : tolOk (some a) (some b) cents
    · simp [freqOk, ht]
    · simp only [freqOk, if_neg ht, Option.getD_some]
      exact freqLoop_of_mem a b _ FREQUENCY_FACTORS f hf hcond
  refine ⟨hfreq, ?_, ?_, ?_⟩
  · intro cents
    refine hfreq 100 1200 cents 10 12 (by decide) (Or.inr ?_)
    have h0 : |(1200 : ℚ) - 100 * ((12 : ℤ) : ℚ)| = 0 := by norm_num
    rw [h0]
    have hc : (0 : ℚ) ≤ ((max 0 cents : ℤ) : ℚ) := by
      exact_mod_cast le_max_left 0 cents
    have he : (0 : ℚ) ≤ ((max 0 10 : ℤ) : ℚ) := by
      exact_mod_cast le_max_left 0 (10 : ℤ)
    have := add_nonneg (div_nonneg hc (by norm_num : (0:ℚ) ≤ 100))
      (div_nonneg he (by norm_num : (0:ℚ) ≤ 100))
    linarith
  · exact ⟨of_decide_eq_true (by with_unfolding_all rfl),
      of_decide_eq_true (by with_unfolding_all rfl)⟩
  · exact ⟨of_decide_eq_true (by with_unfolding_all rfl),
      of_decide_eq_true (by with_unfolding_all rfl)⟩

/-- C2 witness: the 12-times factor resolves 100.00 vs 1200.00 at the
default tolerance. -/
theorem c2_witness : (freqOk (some 100) (some 1200) 2 10).1 = true :=
  c2_frequency_aware_equivalence.1 100 1200 2 10 12 (of_decide_eq_true rfl)
    (Or.inr (of_decide_eq_true (by with_unfolding_all rfl)))

/-- C1 counterexample: at `tolerance_cents = 1` the pair 100.00 vs
1200.00 fails the integer-cents tolerance inequality, yet the totals
comparator emits no discrepancy at all for the key (the 12-times
frequency fallback accepts it), refuting "emits an amount-mismatch
discrepancy exactly when that inequality fails". -/
theorem c1_counterexample :
    ¬ (|pyRound ((100 : ℚ) * 100) - pyRound ((1200 : ℚ) * 100)| ≤ max 0 1) ∧
    (reconcileTotalsTwo [⟨"123456789", "A", "B", "dental", 100, 0⟩]
      [⟨"123456789", "A", "B", "dental", 1200, 0⟩] "Payroll" "BenAdmin" 1).1 = [] :=
  ⟨of_decide_eq_true (by with_unfolding_all rfl),
   of_decide_eq_true (by with_unfolding_all rfl)⟩

/-- C1 amended: `_tol_ok` deems two amounts equal exactly when
`|round(a*100) - round(b*100)| ≤ max(0, tolerance_cents)`; for a key
present on both sides the totals comparator emits an
Employee/Employer Amount Mismatch exactly when the frequency-extended
check (`_freq_ok`: the tolerance test, or a frequency factor within
tolerance plus 10 cents slack) fails for that field — so a tolerance
failure alone does not force a discrepancy; in particular 12.00 vs
12.02 yields a discrepancy at `tolerance_cents = 1` and none at
`tolerance_cents = 2`. -/
theorem c1_tolerance_and_emission :
    (∀ (a b : ℚ) (cents : ℤ),
      tolOk (some a) (some b) cents = true ↔
        |pyRound (a * 100) - pyRound (b * 100)| ≤ max 0 cents) ∧
    (∀ (cents : ℤ) (aName bName : String) (ra rb : PRow),
      (totalsRowErrors cents aName bName [(some ra, some rb)]).1.map
          (fun e => e.etype) =
        (if (freqOk (some ra.ee) (some rb.ee) cents 10).1 = true then []
         else ["Employee Amount Mismatch"]) ++
        (if (freqOk (some ra.er) (some rb.er) cents 10).1 = true then []
         else ["Employer Amount Mismatch"])) ∧
    ((reconcileTotalsTwo [⟨"123456789", "A", "B", "dental", 12, 0⟩]
        [⟨"123456789", "A", "B", "dental", 1202 / 100, 0⟩] "Payroll" "BenAdmin" 1).1.map
        (fun e => e.etype) = ["Employee Amount Mismatch"] ∧
     (reconcileTotalsTwo [⟨"123456789", "A", "B", "dental", 12, 0⟩]
        [⟨"123456789", "A", "B", "dental", 1202 / 100, 0⟩] "Payroll" "BenAdmin" 2).1 = []) := by
  refine ⟨?_, ?_, ?_, ?_⟩
  · intro a b cents
    simp [tolOk, decide_eq_true_eq]
  · intro cents aName bName ra rb
    simp only [totalsRowErrors]
    cases h1 : (freqOk (some ra.ee) (some rb.ee) cents 10).1 <;>
      cases h2 : (freqOk (some ra.er) (some rb.er) cents 10).1 <;>
        simp [h1, h2]
  · exact of_decide_eq_true (by with_unfolding_all rfl)
  · exact of_decide_eq_true (by with_unfolding_all rfl)

/-- C9 (counterexample): `plan_similarity` is NOT symmetric.
`difflib.SequenceMatcher` indexes only its second argument, so
`ratio` depends on the argument order:
`plan_similarity("tide", "diet") = 1/4` (only `t` matches as a block)
while `plan_similarity("diet", "tide") = 1/2` (`ie` matches). -/
theorem c9_counterexample :
    planSimilarity "tide" "diet" ≠ planSimilarity "diet" "tide" :=
  of_decide_eq_true (by with_unfolding_all rfl)

/-- C9 amended: the two remaining properties hold — `plan_similarity`
always returns a value in `[0, 1]`, and `plan_similarity(x, x) = 1`
for every string `x` (on a self-comparison `find_longest_match` keeps
its best block on the diagonal and the extension loops stretch it to
the whole sequence, so the matched total is the full length; two empty
sequences are special-cased to ratio 1.0). -/
theorem c9_similarity_props :
    (∀ a b : String, 0 ≤ planSimilarity a b ∧ planSimilarity a b ≤ 1) ∧
    (∀ s : String, planSimilarity s s = 1) := by
  constructor
  · intro a b
    exact seqRatio_bounds (normalizePlanName a).data (normalizePlanName b).data
  · intro s
    exact seqRatio_self (normalizePlanName s).data

end IvyRecon
